import Mathlib

/-!
Verification of the node_acl permission engine (src/lib/acl.ts, first document).

The engine is storage-agnostic: all state lives behind the bucket-store
interface of src/lib/backend.ts (get / union / unions? / begin / add /
remove / del / end), whose contract is: each (bucket, key) names a set of
strings; get returns the set (empty when absent); union returns the union
over several keys; add inserts values; remove subtracts values; del clears
whole keys.  We embed a store state as a function from bucket and key to
the stored list of values (insertion order, no duplicates created by add),
and each Acl method as a state transformer or a query over such states.
Buckets are a closed enum (meta, parents, resources, roles, users) plus one
dynamic per-resource allows bucket, mirroring the string names "meta",
"parents", ..., and the dynamic name produced by allowsBucket(resource) =
"allows_" ++ resource; the name map is injective and the fixed names never
collide with an allows name, so the enum is a faithful image of the
string-named buckets.

The recursive hierarchy walks (_allRoles, _resourcePermissions,
_checkPermissions) do not terminate on cyclic parents graphs (the source
notes this), so they are embedded with an explicit fuel parameter and
return none when the fuel runs out; on any input where the source
terminates, some fuel makes the embedding return some result, and we prove
that a fuel of (support of the parents bucket).length + 1 always suffices
on acyclic graphs.

Query functions additionally return the list of store read operations they
issue, so that claims about the absence of further store calls can be
stated.
-/

/-- The buckets of the store: the five fixed buckets plus the dynamic
per-resource allows bucket (source: allowsBucket(resource) = "allows_" ++
resource, with the default options.buckets names). -/
inductive Bucket : Type where
  | meta : Bucket
  | parents : Bucket
  | permissions : Bucket
  | resources : Bucket
  | roles : Bucket
  | users : Bucket
  | allows : String → Bucket
deriving DecidableEq

/-- A bucket-store state: every (bucket, key) holds a list of values; an
absent key is the empty list (the backend contract returns the empty set
for absent keys, so absent and empty are indistinguishable). -/
def Store : Type := Bucket → String → List String

/-- The store with no entries. -/
def emptyStore : Store := fun _ _ => []

/-- Source helper allowsBucket(resource): the dynamic bucket holding the
grants of every role on the given resource. -/
def allowsBucket (resource : String) : Bucket := Bucket.allows resource

/-- A user id is a string or a number (source type UserID = string |
number); the store keys it by its string form. -/
inductive UserID : Type where
  | str : String → UserID
  | num : Int → UserID
deriving DecidableEq

/-- The string form under which a user id is keyed in the store. -/
def UserID.key : UserID → String
  | .str s => s
  | .num n => toString n

/-- JavaScript falsiness of a user id (the check if (!userId) in
allowedPermissions): the empty string and the number 0 are falsy. -/
def UserID.falsy : UserID → Bool
  | .str s => s = ""
  | .num n => n = 0

/-- Set-insert of the given values into a stored list, in order, skipping
values already present (the backend add enqueues doc[value] = true for each
value: existing members keep their position, new members are appended in
first-occurrence order). -/
def addVals {α : Type} [DecidableEq α] (old : List α) (vs : List α) : List α :=
  vs.foldl (fun acc v => if v ∈ acc then acc else acc ++ [v]) old

/-- Set-subtract: drop every value that occurs in vs (the backend remove
enqueues $unset doc[value] for each value). -/
def removeAll {α : Type} [DecidableEq α] (old : List α) (vs : List α) : List α :=
  old.filter (fun v => decide (v ∉ vs))

/-- Lodash _.union(a, b): the deduplicated concatenation, keeping first
occurrences in order. -/
def listUnion {α : Type} [DecidableEq α] (a b : List α) : List α :=
  addVals (addVals [] a) b

/-- Lodash _.intersection(a, b): members of a that also occur in b,
deduplicated, in the order of a. -/
def intersectList {α : Type} [DecidableEq α] (a b : List α) : List α :=
  (addVals [] a).filter (fun v => decide (v ∈ b))

/-- Backend union(bucket, keys): the union of the value sets at the given
keys of one bucket, deduplicated, in key order. -/
def unionKeys (s : Store) (b : Bucket) (keys : List String) : List String :=
  keys.foldl (fun acc k => addVals acc (s b k)) []

/-- Backend add(transaction, bucket, key, values) once the transaction is
executed: set-insert the values at the key. -/
def Store.addOp (s : Store) (b : Bucket) (k : String) (vs : List String) : Store :=
  fun b' k' => if b' = b ∧ k' = k then addVals (s b k) vs else s b' k'

/-- Backend remove(transaction, bucket, key, values) once executed:
set-subtract the values at the key. -/
def Store.removeOp (s : Store) (b : Bucket) (k : String) (vs : List String) : Store :=
  fun b' k' => if b' = b ∧ k' = k then removeAll (s b k) vs else s b' k'

/-- Backend del(transaction, bucket, keys) once executed: clear every given
key of the bucket. -/
def Store.delOp (s : Store) (b : Bucket) (ks : List String) : Store :=
  fun b' k' => if b' = b ∧ k' ∈ ks then [] else s b' k'

/-- Acl.addUserRoles(userId, roles): registers the user in meta["users"],
adds the roles to users[userId], and adds the user to roles[role] for each
role (source lines 89-124; the three groups of adds run in one
transaction, in push order). -/
def addUserRoles (s : Store) (uid : UserID) (roles : List String) : Store :=
  let s1 := (s.addOp Bucket.meta "users" [uid.key]).addOp Bucket.users uid.key roles
  roles.foldl (fun acc role => acc.addOp Bucket.roles role [uid.key]) s1

/-- Acl.addRoleParents(role, parents): registers the role in meta["roles"]
and adds the parents to parents[role] (source lines 221-242). -/
def addRoleParents (s : Store) (role : String) (parents : List String) : Store :=
  (s.addOp Bucket.meta "roles" [role]).addOp Bucket.parents role parents

/-- Acl.allow(roles, resources, permissions) (source lines 364-414):
registers the roles in meta["roles"], adds the permissions to
allows(resource)[role] for every resource-role pair, and adds the
resources to resources[role] for every role; all in one transaction, in
push order. -/
def allow (s : Store) (roles resources permissions : List String) : Store :=
  let s1 := s.addOp Bucket.meta "roles" roles
  let s2 := resources.foldl
    (fun accR resource =>
      roles.foldl (fun acc role => acc.addOp (allowsBucket resource) role permissions) accR)
    s1
  roles.foldl (fun acc role => acc.addOp Bucket.resources role resources) s2

/-- Acl.removePermissions(role, resources, permissions) (source lines
432-470).  permissions = some ps is the truthy case: subtract ps from
allows(resource)[role] for every resource.  permissions = none is the
omitted case: clear allows(resource)[role] and drop the resource from the
resources[role] index.  A second transaction then re-reads each touched
allows(resource)[role] against the state after the first transaction and
drops the resource from the index when the grant set is now empty (the
source note: not fully atomic). -/
def removePermissions (s : Store) (role : String) (resources : List String)
    (permissions : Option (List String)) : Store :=
  let s1 := resources.foldl
    (fun acc resource =>
      match permissions with
      | some ps => acc.removeOp (allowsBucket resource) role ps
      | none =>
        (acc.delOp (allowsBucket resource) [role]).removeOp Bucket.resources role [resource])
    s
  resources.foldl
    (fun acc resource =>
      if s1 (allowsBucket resource) role = [] then acc.removeOp Bucket.resources role [resource]
      else acc)
    s1

/-- Acl.removeAllow(role, resources, permissions) (source lines 416-419):
normalizes resources to an array and delegates to removePermissions. -/
def removeAllow (s : Store) (role : String) (resources : List String)
    (permissions : Option (List String)) : Store :=
  removePermissions s role resources permissions

/-- Acl.removeRole(role) (source lines 286-314): reads resources[role]
(outside the transaction), then in one transaction clears
allows(resource)[role] for each indexed resource, clears resources[role],
parents[role] and roles[role], and subtracts the role from meta["roles"].
The users bucket is deliberately untouched (source comment: the users
collection keeps the removed role). -/
def removeRole (s : Store) (role : String) : Store :=
  let resources := s Bucket.resources role
  let s1 := resources.foldl (fun acc resource => acc.delOp (allowsBucket resource) [role]) s
  let s2 := s1.delOp Bucket.resources [role]
  let s3 := s2.delOp Bucket.parents [role]
  let s4 := s3.delOp Bucket.roles [role]
  s4.removeOp Bucket.meta "roles" [role]

/-- A read issued against the store: get(bucket, key), union(bucket, keys)
or the optional batched unions(buckets, keys). -/
inductive ReadOp : Type where
  | get : Bucket → String → ReadOp
  | union : Bucket → List String → ReadOp
  | unions : List Bucket → List String → ReadOp
deriving DecidableEq

/-- Acl._checkPermissions(roles, resource, permissions) (source lines
794-820), with fuel for the parents recursion (the source crashes on
cyclic graphs): fetch the union of allows(resource) over the roles; if it
contains "*" the query is allowed; otherwise drop the granted permissions
from the asked ones; if none remain the query is allowed; otherwise fetch
the union of parents over the roles, deny if it is empty, and recurse on
the parents with the remaining permissions.  Also returns the trace of
store reads. -/
def checkPermissionsT (s : Store) (resource : String) :
    Nat → List String → List String → Option Bool × List ReadOp
  | 0, _, _ => (none, [])
  | fuel + 1, roles, permissions =>
    let resourcePermissions := unionKeys s (allowsBucket resource) roles
    if "*" ∈ resourcePermissions then
      (some true, [ReadOp.union (allowsBucket resource) roles])
    else
      let remaining := permissions.filter (fun p => decide (p ∉ resourcePermissions))
      if remaining = [] then (some true, [ReadOp.union (allowsBucket resource) roles])
      else
        let parents := unionKeys s Bucket.parents roles
        if parents = [] then
          (some false, [ReadOp.union (allowsBucket resource) roles, ReadOp.union Bucket.parents roles])
        else
          let rec' := checkPermissionsT s resource fuel parents remaining
          (rec'.1, ReadOp.union (allowsBucket resource) roles :: ReadOp.union Bucket.parents roles :: rec'.2)

/-- Acl.areAnyRolesAllowed(roles, resource, permissions) (source lines
592-606): false for an empty role list, with no store call; otherwise
delegates to _checkPermissions. -/
def areAnyRolesAllowedT (s : Store) (resource : String) (fuel : Nat)
    (roles permissions : List String) : Option Bool × List ReadOp :=
  if roles = [] then (some false, [])
  else checkPermissionsT s resource fuel roles permissions

/-- Acl.isAllowed(userId, resource, permissions) (source lines 568-580):
reads the direct roles of the user from the users bucket; an empty role
set is an immediate denial with no further store call; otherwise delegates
to areAnyRolesAllowed. -/
def isAllowedT (s : Store) (fuel : Nat) (uid : UserID) (resource : String)
    (permissions : List String) : Option Bool × List ReadOp :=
  let roles := s Bucket.users uid.key
  if roles = [] then (some false, [ReadOp.get Bucket.users uid.key])
  else
    let rest := areAnyRolesAllowedT s resource fuel roles permissions
    (rest.1, ReadOp.get Bucket.users uid.key :: rest.2)

/-- Acl._resourcePermissions(roles, resource) (source lines 769-789), with
fuel for the parents recursion: empty roles yield the empty set with no
store call; otherwise the union of allows(resource) over the roles,
unioned with the same computed recursively over the union of their
parents, one generation per step. -/
def resourcePermissionsT (s : Store) (resource : String) :
    Nat → List String → Option (List String) × List ReadOp
  | _, [] => (some [], [])
  | 0, _ :: _ => (none, [])
  | fuel + 1, r :: rs =>
    let roles := r :: rs
    let resourcePermissions := unionKeys s (allowsBucket resource) roles
    let parents := unionKeys s Bucket.parents roles
    let log0 := [ReadOp.union (allowsBucket resource) roles, ReadOp.union Bucket.parents roles]
    if parents = [] then (some resourcePermissions, log0)
    else
      let more := resourcePermissionsT s resource fuel parents
      ((more.1).map (fun m => listUnion resourcePermissions m), log0 ++ more.2)

/-- Acl._allRoles(roleNames) (source lines 711-723), with fuel: fetch the
union of parents over the roles; when it is empty return the roles as
given, otherwise recurse on the parents and return the lodash union of the
roles with the recursive result. -/
def allRolesT (s : Store) : Nat → List String → Option (List String) × List ReadOp
  | 0, _ => (none, [])
  | fuel + 1, roleNames =>
    let parents := unionKeys s Bucket.parents roleNames
    if parents = [] then (some roleNames, [ReadOp.union Bucket.parents roleNames])
    else
      let more := allRolesT s fuel parents
      ((more.1).map (fun parentRoles => listUnion roleNames parentRoles),
        ReadOp.union Bucket.parents roleNames :: more.2)

/-- Acl._allUserRoles(userId) (source lines 728-738): the hierarchy closure
of the direct roles of the user, or the empty list when the user has
none. -/
def allUserRolesT (s : Store) (fuel : Nat) (uid : UserID) : Option (List String) × List ReadOp :=
  let roles := s Bucket.users uid.key
  if roles = [] then (some [], [ReadOp.get Bucket.users uid.key])
  else
    let more := allRolesT s fuel roles
    (more.1, ReadOp.get Bucket.users uid.key :: more.2)

/-- Acl._rolesResources(roles) (source lines 743-764): the concatenation of
resources[role] over the hierarchy closure of the roles (concat, so a
resource indexed under several roles occurs several times). -/
def rolesResources (s : Store) (fuel : Nat) (roles : List String) : Option (List String) :=
  ((allRolesT s fuel roles).1).map
    (fun allRoles => allRoles.foldl (fun acc role => acc ++ s Bucket.resources role) [])

/-- Insertion into a JavaScript object modelled as an association list:
overwrite the value in place when the key exists, append otherwise. -/
def objInsert {κ α : Type} [DecidableEq κ] (m : List (κ × α)) (k : κ) (v : α) : List (κ × α) :=
  if m.any (fun p => decide (p.1 = k)) then m.map (fun p => if p.1 = k then (k, v) else p)
  else m ++ [(k, v)]

/-- The canonical object produced by writing f k under key k for each k of
the list in order: one entry per distinct key, in first-occurrence order. -/
def stdMap {κ α : Type} [DecidableEq κ] (f : κ → α) (ks : List κ) : List (κ × α) :=
  (addVals [] ks).map (fun k => (k, f k))

/-- Modelled from the spec: the optional unions batching capability of the
bucket store, absent from src (the Backend type only declares it):
unions(buckets, keys) returns a map from each given bucket to the union of
the values of the given keys in that bucket, independently per bucket. -/
def unionsOp (s : Store) (buckets : List Bucket) (keys : List String) : List (Bucket × List String) :=
  buckets.foldl (fun acc b => objInsert acc b (unionKeys s b keys)) []

/-- Source helper keyFromAllowsBucket: strips the leading "allows_" from a
bucket name, recovering the resource from an allows bucket; on the enum
embedding this projects the allows constructor and is the inverse of
allowsBucket. -/
def keyFromAllowsBucket : Bucket → String
  | .allows resource => resource
  | .meta => "meta"
  | .parents => "parents"
  | .permissions => "permissions"
  | .resources => "resources"
  | .roles => "roles"
  | .users => "users"

/-- The internal result object of the portable branch of
Acl.allowedPermissions (source lines 497-511): the direct roles of the
user, then one _resourcePermissions call per requested resource, written
into an object keyed by resource.  NOTE: the source builds this object but
then returns the bluebird.all array instead (see allowedPermissionsT); the
repository tests and the function documentation expect this object. -/
def allowedPermissionsPortableT (s : Store) (fuel : Nat) (uid : UserID)
    (resources : List String) : Option (List (String × List String)) × List ReadOp :=
  let roles := s Bucket.users uid.key
  resources.foldl
    (fun acc resource =>
      (match acc.1 with
        | none => none
        | some m =>
          match (resourcePermissionsT s resource fuel roles).1 with
          | none => none
          | some ps => some (objInsert m resource ps),
       acc.2 ++ (resourcePermissionsT s resource fuel roles).2))
    (some [], [ReadOp.get Bucket.users uid.key])

/-- Acl.optimizedAllowedPermissions(userId, resources) (source lines
528-555): empty object for a falsy user id; otherwise computes the full
hierarchy closure of the direct roles once, issues one batched unions call
over all allows(resource) buckets for that closure, and re-keys the
response by resource.  (The roles.length === 0 branch of the source builds
an empty response that is immediately overwritten by the unconditional
unions call, which returns the same empty sets for an empty key list.) -/
def optimizedAllowedPermissionsT (s : Store) (fuel : Nat) (uid : UserID)
    (resources : List String) : Option (List (String × List String)) × List ReadOp :=
  if uid.falsy then (some [], [])
  else
    let rolesRes := allUserRolesT s fuel uid
    match rolesRes.1 with
    | none => (none, rolesRes.2)
    | some roles =>
      let buckets := resources.map allowsBucket
      let response := unionsOp s buckets roles
      let result := response.foldl (fun acc p => objInsert acc (keyFromAllowsBucket p.1) p.2) []
      (some result, rolesRes.2 ++ [ReadOp.unions buckets roles])

/-- The value returned by Acl.allowedPermissions: either a JavaScript
object mapping resources to permission lists, or an array (of undefined
values, modelled as units) — the portable branch of the source returns the
bluebird.all array rather than its result object. -/
inductive APValue : Type where
  | obj : List (String × List String) → APValue
  | arr : List Unit → APValue
deriving DecidableEq

/-- Acl.allowedPermissions(userId, resources) (source lines 485-511):
returns the empty object at once for a falsy user id (no store call);
delegates to optimizedAllowedPermissions when the backend has the unions
capability; otherwise runs the portable per-resource strategy — but
returns the bluebird.all array of the per-resource assignment promises
(each resolving to undefined) instead of the result object it built
(source lines 502-511: return await bluebird.all(...)). -/
def allowedPermissionsT (s : Store) (hasUnions : Bool) (fuel : Nat) (uid : UserID)
    (resources : List String) : Option APValue × List ReadOp :=
  if uid.falsy then (some (.obj []), [])
  else if hasUnions then
    let r := optimizedAllowedPermissionsT s fuel uid resources
    ((r.1).map .obj, r.2)
  else
    let r := allowedPermissionsPortableT s fuel uid resources
    ((r.1).map (fun _ => .arr (resources.map (fun _ => ()))), r.2)

/-- The internal result object of Acl.permittedResources(roles, permissions)
in the permissions-omitted mode (source lines 645-665): every resource of
_rolesResources(roles) keyed to its _resourcePermissions set.  NOTE: the
source builds this object but returns the bluebird.all array instead (see
whatResourcesV1); the repository tests expect this object. -/
def permittedResourcesMapT (s : Store) (fuel : Nat) (roles : List String) :
    Option (List (String × List String)) :=
  match rolesResources s fuel roles with
  | none => none
  | some ress =>
    ress.foldl
      (fun acc resource =>
        match acc with
        | none => none
        | some m =>
          match (resourcePermissionsT s resource fuel roles).1 with
          | none => none
          | some ps => some (objInsert m resource ps))
      (some [])

/-- The internal result array of Acl.permittedResources(roles, permissions)
in the permissions-given mode (source lines 645-665): the resources of
_rolesResources(roles) whose _resourcePermissions set meets the requested
permissions, pushed in order (a resource indexed under several roles is
pushed once per occurrence).  NOTE: as above, the source returns the
bluebird.all array instead of this array. -/
def permittedResourcesFilterT (s : Store) (fuel : Nat) (roles permissions : List String) :
    Option (List String) :=
  match rolesResources s fuel roles with
  | none => none
  | some ress =>
    ress.foldl
      (fun acc resource =>
        match acc with
        | none => none
        | some l =>
          match (resourcePermissionsT s resource fuel roles).1 with
          | none => none
          | some ps =>
            some (if intersectList permissions ps = [] then l else l ++ [resource]))
      (some [])

/-- The value Acl.whatResources actually returns in the source (lines
621-665): permittedResources returns await bluebird.all(resources.map(...)),
an array with one undefined per element of _rolesResources(roles), and the
built result object or array is discarded. -/
def whatResourcesV1 (s : Store) (fuel : Nat) (roles : List String)
    (permissions : Option (List String)) : Option (List Unit) :=
  match rolesResources s fuel roles with
  | none => none
  | some ress =>
    match permissions with
    | none => (permittedResourcesMapT s fuel roles).map (fun _ => ress.map (fun _ => ()))
    | some qs => (permittedResourcesFilterT s fuel roles qs).map (fun _ => ress.map (fun _ => ()))

/-- The permission-checker step relation, transcribed from the spec
(section 4.4): from state (currentRoles, remainingPermissions) over a
fixed resource, fetch granted = union(allows(resource), currentRoles); a
wildcard in granted is terminal ALLOWED; else subtract granted from the
remaining permissions; an empty remainder is ALLOWED; else fetch the union
of parents; an empty union is terminal DENIED, otherwise recurse on
(parents, remainder). -/
inductive CheckRel (s : Store) (resource : String) : List String → List String → Bool → Prop where
  | wildcard (roles permissions : List String)
      (hw : "*" ∈ unionKeys s (allowsBucket resource) roles) :
      CheckRel s resource roles permissions true
  | granted (roles permissions : List String)
      (hw : "*" ∉ unionKeys s (allowsBucket resource) roles)
      (hr : permissions.filter
        (fun p => decide (p ∉ unionKeys s (allowsBucket resource) roles)) = []) :
      CheckRel s resource roles permissions true
  | denied (roles permissions : List String)
      (hw : "*" ∉ unionKeys s (allowsBucket resource) roles)
      (hr : permissions.filter
        (fun p => decide (p ∉ unionKeys s (allowsBucket resource) roles)) ≠ [])
      (hp : unionKeys s Bucket.parents roles = []) :
      CheckRel s resource roles permissions false
  | ascend (roles permissions : List String) (b : Bool)
      (hw : "*" ∉ unionKeys s (allowsBucket resource) roles)
      (hr : permissions.filter
        (fun p => decide (p ∉ unionKeys s (allowsBucket resource) roles)) ≠ [])
      (hp : unionKeys s Bucket.parents roles ≠ [])
      (hrec : CheckRel s resource (unionKeys s Bucket.parents roles)
        (permissions.filter
          (fun p => decide (p ∉ unionKeys s (allowsBucket resource) roles))) b) :
      CheckRel s resource roles permissions b

/-- Role b is reachable from role a by at least one parents edge. -/
def ReachesPlus (s : Store) : String → String → Prop :=
  Relation.TransGen (fun a b => b ∈ s Bucket.parents a)

/-- The parents graph of the store has no cycle. -/
def Acyclic (s : Store) : Prop := ∀ x, ¬ ReachesPlus s x x

/-- Role x belongs to the ancestor closure of the given roles: it is one of
them or reachable from one of them via parents edges. -/
def InClosure (s : Store) (roles : List String) (x : String) : Prop :=
  x ∈ roles ∨ ∃ r ∈ roles, ReachesPlus s r x

/-- Two lists denote the same set. -/
def SetEq (a b : List String) : Prop := ∀ x, x ∈ a ↔ x ∈ b

/-- Two association lists denote the same resource-to-permission-set
mapping: identical key sequences, and set-equal values at every shared
key. -/
def MapEquiv (m1 m2 : List (String × List String)) : Prop :=
  m1.map Prod.fst = m2.map Prod.fst ∧
    ∀ k v1 v2, (k, v1) ∈ m1 → (k, v2) ∈ m2 → SetEq v1 v2

/-- A descending chain in the parents graph: consecutive elements are
joined by a parents edge. -/
inductive PChain (s : Store) : List String → Prop where
  | nil : PChain s []
  | single (a : String) : PChain s [a]
  | cons (a b : String) (l : List String) (hab : b ∈ s Bucket.parents a)
      (htl : PChain s (b :: l)) : PChain s (a :: b :: l)

/-- Demonstration state: user u holds role r, and r is granted view on
blogs. -/
def demoStore : Store := allow (addUserRoles emptyStore (.str "u") ["r"]) ["r"] ["blogs"] ["view"]

/-- Demonstration state for the revocation counterexample: user u holds
role r, r was granted the permissions p and * on res, and p was then
revoked — the wildcard survives. -/
def c2Store : Store :=
  removeAllow (allow (addUserRoles emptyStore (.str "u") ["r"]) ["r"] ["res"] ["p", "*"])
    "r" ["res"] (some ["p"])

/-- Demonstration state: the numeric user id 0 holds role r, and r is
granted p on res. -/
def zeroStore : Store := allow (addUserRoles emptyStore (.num 0) ["r"]) ["r"] ["res"] ["p"]

/-- Demonstration state: role bar is granted view and delete on blogs. -/
def c8Store : Store := allow emptyStore ["bar"] ["blogs"] ["view", "delete"]

/-- Demonstration state: a single parents edge from r to a. -/
def parentStore : Store :=
  fun b k => if b = Bucket.parents ∧ k = "r" then ["a"] else []

/-- Demonstration state: user u holds role1, and role1 and role2 are both
granted perm1 on the shared resource. -/
def c5Store : Store :=
  allow (addUserRoles emptyStore (.str "u") ["role1"]) ["role1", "role2"] ["shared"] ["perm1"]

/-- Demonstration state: role child has parent par, and par is granted
read on x. -/
def hierStore : Store := allow (addRoleParents emptyStore "child" ["par"]) ["par"] ["x"] ["read"]

/-! Basic lemmas about the list-set primitives. -/

theorem addVals_nil {α : Type} [DecidableEq α] (old : List α) : addVals old [] = old := rfl

theorem addVals_cons {α : Type} [DecidableEq α] (old : List α) (v : α) (vs : List α) :
    addVals old (v :: vs) = addVals (if v ∈ old then old else old ++ [v]) vs := rfl

theorem addVals_append {α : Type} [DecidableEq α] (old a b : List α) :
    addVals old (a ++ b) = addVals (addVals old a) b := by
  simp [addVals, List.foldl_append]

theorem mem_addVals {α : Type} [DecidableEq α] (old vs : List α) (x : α) :
    x ∈ addVals old vs ↔ x ∈ old ∨ x ∈ vs := by
  induction vs generalizing old with
  | nil => simp [addVals_nil]
  | cons v vs ih =>
    rw [addVals_cons]
    by_cases hv : v ∈ old
    · rw [if_pos hv, ih]
      constructor
      · rintro (h | h)
        · exact Or.inl h
        · exact Or.inr (List.mem_cons_of_mem _ h)
      · rintro (h | h)
        · exact Or.inl h
        · rcases List.mem_cons.mp h with h | h
          · exact Or.inl (h ▸ hv)
          · exact Or.inr h
    · rw [if_neg hv, ih]
      simp only [List.mem_append, List.mem_singleton, List.mem_cons]
      tauto

theorem addVals_nodup {α : Type} [DecidableEq α] (old vs : List α) (h : old.Nodup) :
    (addVals old vs).Nodup := by
  induction vs generalizing old with
  | nil => exact h
  | cons v vs ih =>
    rw [addVals_cons]
    by_cases hv : v ∈ old
    · rw [if_pos hv]; exact ih old h
    · rw [if_neg hv]
      refine ih _ ?_
      simp [List.nodup_append, h, hv]

theorem addVals_addVals {α : Type} [DecidableEq α] (acc d l : List α) :
    addVals acc (addVals d l) = addVals (addVals acc d) l := by
  induction l generalizing d with
  | nil => simp [addVals_nil]
  | cons x xs ih =>
    rw [addVals_cons d, addVals_cons (addVals acc d)]
    by_cases hd : x ∈ d
    · rw [if_pos hd, ih, if_pos ((mem_addVals acc d x).mpr (Or.inr hd))]
    · rw [if_neg hd, ih]
      by_cases ha : x ∈ addVals acc d
      · rw [if_pos ha]
        have : addVals acc (d ++ [x]) = addVals acc d := by
          rw [addVals_append, addVals_cons, addVals_nil, if_pos ha]
        rw [this]
      · rw [if_neg ha]
        have : addVals acc (d ++ [x]) = addVals acc d ++ [x] := by
          rw [addVals_append, addVals_cons, addVals_nil, if_neg ha]
        rw [this]

theorem mem_listUnion {α : Type} [DecidableEq α] (a b : List α) (x : α) :
    x ∈ listUnion a b ↔ x ∈ a ∨ x ∈ b := by
  simp [listUnion, mem_addVals]

theorem listUnion_nodup {α : Type} [DecidableEq α] (a b : List α) : (listUnion a b).Nodup :=
  addVals_nodup _ _ (addVals_nodup _ _ List.nodup_nil)

theorem removeAll_nil {α : Type} [DecidableEq α] (vs : List α) : removeAll ([] : List α) vs = [] := rfl

theorem removeAll_cons {α : Type} [DecidableEq α] (x : α) (l vs : List α) :
    removeAll (x :: l) vs = if x ∈ vs then removeAll l vs else x :: removeAll l vs := by
  by_cases hx : x ∈ vs
  · simp [removeAll, List.filter_cons, hx]
  · simp [removeAll, List.filter_cons, hx]

theorem mem_removeAll {α : Type} [DecidableEq α] (old vs : List α) (x : α) :
    x ∈ removeAll old vs ↔ x ∈ old ∧ x ∉ vs := by
  simp [removeAll, List.mem_filter]

theorem mem_intersectList {α : Type} [DecidableEq α] (a b : List α) (x : α) :
    x ∈ intersectList a b ↔ x ∈ a ∧ x ∈ b := by
  simp [intersectList, List.mem_filter, mem_addVals]

theorem intersectList_ne_nil {α : Type} [DecidableEq α] (a b : List α) :
    intersectList a b ≠ [] ↔ ∃ x ∈ a, x ∈ b := by
  rw [ne_eq, List.eq_nil_iff_forall_not_mem]
  push_neg
  constructor
  · rintro ⟨x, hx⟩
    rw [mem_intersectList] at hx
    exact ⟨x, hx.1, hx.2⟩
  · rintro ⟨x, hxa, hxb⟩
    exact ⟨x, (mem_intersectList a b x).mpr ⟨hxa, hxb⟩⟩

theorem unionKeys_nil (s : Store) (b : Bucket) : unionKeys s b [] = [] := rfl

theorem mem_unionKeys (s : Store) (b : Bucket) (keys : List String) (x : String) :
    x ∈ unionKeys s b keys ↔ ∃ k ∈ keys, x ∈ s b k := by
  have h : ∀ acc : List String,
      x ∈ keys.foldl (fun acc k => addVals acc (s b k)) acc ↔
        x ∈ acc ∨ ∃ k ∈ keys, x ∈ s b k := by
    induction keys with
    | nil => intro acc; simp
    | cons k ks ih =>
      intro acc
      rw [List.foldl_cons, ih, mem_addVals]
      simp only [List.mem_cons]
      constructor
      · rintro ((h | h) | ⟨k', hk', hx⟩)
        · exact Or.inl h
        · exact Or.inr ⟨k, Or.inl rfl, h⟩
        · exact Or.inr ⟨k', Or.inr hk', hx⟩
      · rintro (h | ⟨k', hk' | hk', hx⟩)
        · exact Or.inl (Or.inl h)
        · exact Or.inl (Or.inr (hk' ▸ hx))
        · exact Or.inr ⟨k', hk', hx⟩
  simpa using h []

theorem unionKeys_eq_nil (s : Store) (b : Bucket) (keys : List String)
    (h : unionKeys s b keys = []) : ∀ k ∈ keys, s b k = [] := by
  intro k hk
  rw [List.eq_nil_iff_forall_not_mem]
  intro x hx
  have : x ∈ unionKeys s b keys := (mem_unionKeys s b keys x).mpr ⟨k, hk, hx⟩
  rw [h] at this
  exact List.not_mem_nil x this

/-! Case lemmas for the permission checker. -/

theorem checkPermissionsT_zero (s : Store) (resource : String) (roles permissions : List String) :
    checkPermissionsT s resource 0 roles permissions = (none, []) := rfl

theorem checkPermissionsT_wild (s : Store) (resource : String) (fuel : Nat)
    (roles permissions : List String)
    (hw : "*" ∈ unionKeys s (allowsBucket resource) roles) :
    checkPermissionsT s resource (fuel + 1) roles permissions =
      (some true, [ReadOp.union (allowsBucket resource) roles]) := by
  rw [checkPermissionsT]
  simp only [if_pos hw]

theorem checkPermissionsT_granted (s : Store) (resource : String) (fuel : Nat)
    (roles permissions : List String)
    (hw : "*" ∉ unionKeys s (allowsBucket resource) roles)
    (hr : permissions.filter
      (fun p => decide (p ∉ unionKeys s (allowsBucket resource) roles)) = []) :
    checkPermissionsT s resource (fuel + 1) roles permissions =
      (some true, [ReadOp.union (allowsBucket resource) roles]) := by
  rw [checkPermissionsT]
  simp only [if_neg hw, hr]
  simp

theorem checkPermissionsT_noparents (s : Store) (resource : String) (fuel : Nat)
    (roles permissions : List String)
    (hw : "*" ∉ unionKeys s (allowsBucket resource) roles)
    (hr : permissions.filter
      (fun p => decide (p ∉ unionKeys s (allowsBucket resource) roles)) ≠ [])
    (hp : unionKeys s Bucket.parents roles = []) :
    checkPermissionsT s resource (fuel + 1) roles permissions =
      (some false,
        [ReadOp.union (allowsBucket resource) roles, ReadOp.union Bucket.parents roles]) := by
  rw [checkPermissionsT]
  simp only [if_neg hw, if_neg hr, hp]
  simp

theorem checkPermissionsT_ascend (s : Store) (resource : String) (fuel : Nat)
    (roles permissions : List String)
    (hw : "*" ∉ unionKeys s (allowsBucket resource) roles)
    (hr : permissions.filter
      (fun p => decide (p ∉ unionKeys s (allowsBucket resource) roles)) ≠ [])
    (hp : unionKeys s Bucket.parents roles ≠ []) :
    checkPermissionsT s resource (fuel + 1) roles permissions =
      ((checkPermissionsT s resource fuel (unionKeys s Bucket.parents roles)
        (permissions.filter
          (fun p => decide (p ∉ unionKeys s (allowsBucket resource) roles)))).1,
        ReadOp.union (allowsBucket resource) roles :: ReadOp.union Bucket.parents roles ::
          (checkPermissionsT s resource fuel (unionKeys s Bucket.parents roles)
            (permissions.filter
              (fun p => decide (p ∉ unionKeys s (allowsBucket resource) roles)))).2) := by
  rw [checkPermissionsT]
  simp only [if_neg hw, if_neg hr, if_neg hp]

/-- Every answer of the fuelled checker is derivable in the spec step
relation. -/
theorem checkPermissions_sound (s : Store) (resource : String) :
    ∀ fuel roles permissions b,
      (checkPermissionsT s resource fuel roles permissions).1 = some b →
      CheckRel s resource roles permissions b := by
  intro fuel
  induction fuel with
  | zero =>
    intro roles permissions b h
    rw [checkPermissionsT_zero] at h
    exact absurd h (by simp)
  | succ f ih =>
    intro roles permissions b h
    by_cases hw : "*" ∈ unionKeys s (allowsBucket resource) roles
    · rw [checkPermissionsT_wild s resource f roles permissions hw] at h
      obtain rfl : true = b := by simpa using h
      exact CheckRel.wildcard roles permissions hw
    · by_cases hr : permissions.filter
        (fun p => decide (p ∉ unionKeys s (allowsBucket resource) roles)) = []
      · rw [checkPermissionsT_granted s resource f roles permissions hw hr] at h
        obtain rfl : true = b := by simpa using h
        exact CheckRel.granted roles permissions hw hr
      · by_cases hp : unionKeys s Bucket.parents roles = []
        · rw [checkPermissionsT_noparents s resource f roles permissions hw hr hp] at h
          obtain rfl : false = b := by simpa using h
          exact CheckRel.denied roles permissions hw hr hp
        · rw [checkPermissionsT_ascend s resource f roles permissions hw hr hp] at h
          exact CheckRel.ascend roles permissions b hw hr hp (ih _ _ b h)

/-- Every derivation of the spec step relation is computed by the checker
at some fuel. -/
theorem checkPermissions_complete (s : Store) (resource : String) :
    ∀ roles permissions b,
      CheckRel s resource roles permissions b →
      ∃ fuel, (checkPermissionsT s resource fuel roles permissions).1 = some b := by
  intro roles permissions b h
  induction h with
  | wildcard roles permissions hw =>
    exact ⟨1, by rw [checkPermissionsT_wild s resource 0 roles permissions hw]⟩
  | granted roles permissions hw hr =>
    exact ⟨1, by rw [checkPermissionsT_granted s resource 0 roles permissions hw hr]⟩
  | denied roles permissions hw hr hp =>
    exact ⟨1, by rw [checkPermissionsT_noparents s resource 0 roles permissions hw hr hp]⟩
  | ascend roles permissions b hw hr hp _ ih =>
    obtain ⟨f, hf⟩ := ih
    exact ⟨f + 1, by rw [checkPermissionsT_ascend s resource f roles permissions hw hr hp]; exact hf⟩

/-! Case lemmas for the hierarchy resolver and the permission aggregator. -/

theorem allRolesT_zero (s : Store) (roles : List String) : allRolesT s 0 roles = (none, []) := rfl

theorem allRolesT_base (s : Store) (fuel : Nat) (roles : List String)
    (hp : unionKeys s Bucket.parents roles = []) :
    allRolesT s (fuel + 1) roles = (some roles, [ReadOp.union Bucket.parents roles]) := by
  rw [allRolesT]
  simp only [hp]
  simp

theorem allRolesT_step (s : Store) (fuel : Nat) (roles : List String)
    (hp : unionKeys s Bucket.parents roles ≠ []) :
    allRolesT s (fuel + 1) roles =
      (((allRolesT s fuel (unionKeys s Bucket.parents roles)).1).map
          (fun parentRoles => listUnion roles parentRoles),
        ReadOp.union Bucket.parents roles ::
          (allRolesT s fuel (unionKeys s Bucket.parents roles)).2) := by
  rw [allRolesT]
  simp only [if_neg hp]

theorem resourcePermissionsT_nil (s : Store) (resource : String) (fuel : Nat) :
    resourcePermissionsT s resource fuel [] = (some [], []) := by
  cases fuel <;> rfl

theorem resourcePermissionsT_zero_cons (s : Store) (resource : String) (r : String)
    (rs : List String) : resourcePermissionsT s resource 0 (r :: rs) = (none, []) := rfl

theorem resourcePermissionsT_base (s : Store) (resource : String) (fuel : Nat)
    (r : String) (rs : List String)
    (hp : unionKeys s Bucket.parents (r :: rs) = []) :
    resourcePermissionsT s resource (fuel + 1) (r :: rs) =
      (some (unionKeys s (allowsBucket resource) (r :: rs)),
        [ReadOp.union (allowsBucket resource) (r :: rs), ReadOp.union Bucket.parents (r :: rs)]) := by
  rw [resourcePermissionsT]
  simp only [hp]
  simp

theorem resourcePermissionsT_step (s : Store) (resource : String) (fuel : Nat)
    (r : String) (rs : List String)
    (hp : unionKeys s Bucket.parents (r :: rs) ≠ []) :
    resourcePermissionsT s resource (fuel + 1) (r :: rs) =
      (((resourcePermissionsT s resource fuel (unionKeys s Bucket.parents (r :: rs))).1).map
          (fun m => listUnion (unionKeys s (allowsBucket resource) (r :: rs)) m),
        [ReadOp.union (allowsBucket resource) (r :: rs), ReadOp.union Bucket.parents (r :: rs)] ++
          (resourcePermissionsT s resource fuel (unionKeys s Bucket.parents (r :: rs))).2) := by
  rw [resourcePermissionsT]
  simp only [if_neg hp]

/-- Reachability introduction from one parents edge. -/
theorem reachesPlus_single {s : Store} {a b : String} (h : b ∈ s Bucket.parents a) :
    ReachesPlus s a b :=
  Relation.TransGen.single h

/-- Reachability extension by a leading parents edge. -/
theorem reachesPlus_head {s : Store} {a b c : String} (h : b ∈ s Bucket.parents a)
    (h2 : ReachesPlus s b c) : ReachesPlus s a c :=
  Relation.TransGen.head h h2

/-- Case analysis on the first edge of a reachability derivation. -/
theorem reachesPlus_cases_head {s : Store} {a c : String} (h : ReachesPlus s a c) :
    c ∈ s Bucket.parents a ∨ ∃ b, b ∈ s Bucket.parents a ∧ ReachesPlus s b c := by
  have h2 : Relation.TransGen (fun x y => y ∈ s Bucket.parents x) a c := h
  rcases Relation.TransGen.head'_iff.mp h2 with ⟨b, hab, hbc⟩
  rcases Relation.ReflTransGen.cases_head hbc with rfl | ⟨d, hbd, hdc⟩
  · exact Or.inl hab
  · exact Or.inr ⟨b, hab, Relation.TransGen.head' hbd hdc⟩

/-- Successful runs of the hierarchy resolver return exactly the ancestor
closure of the input roles. -/
theorem allRoles_mem (s : Store) :
    ∀ fuel roles result, (allRolesT s fuel roles).1 = some result →
      ∀ x, x ∈ result ↔ InClosure s roles x := by
  intro fuel
  induction fuel with
  | zero =>
    intro roles result h
    rw [allRolesT_zero] at h
    exact absurd h (by simp)
  | succ f ih =>
    intro roles result h x
    by_cases hp : unionKeys s Bucket.parents roles = []
    · rw [allRolesT_base s f roles hp] at h
      obtain rfl : roles = result := by simpa using h
      unfold InClosure
      constructor
      · exact Or.inl
      · rintro (hx | ⟨r, hr, hreach⟩)
        · exact hx
        · rcases reachesPlus_cases_head hreach with hedge | ⟨b, hedge, _⟩
          · rw [unionKeys_eq_nil s Bucket.parents roles hp r hr] at hedge
            exact absurd hedge (List.not_mem_nil x)
          · rw [unionKeys_eq_nil s Bucket.parents roles hp r hr] at hedge
            exact absurd hedge (List.not_mem_nil b)
    · rw [allRolesT_step s f roles hp] at h
      simp only [Option.map_eq_some'] at h
      obtain ⟨pres, hpres, rfl⟩ := by
        simpa using h
      rw [mem_listUnion]
      have ihp := ih (unionKeys s Bucket.parents roles) pres hpres
      unfold InClosure at ihp ⊢
      constructor
      · rintro (hx | hx)
        · exact Or.inl hx
        · rcases (ihp x).mp hx with hx | ⟨p, hpmem, hreach⟩
          · obtain ⟨r, hr, hedge⟩ := (mem_unionKeys s Bucket.parents roles x).mp hx
            exact Or.inr ⟨r, hr, reachesPlus_single hedge⟩
          · obtain ⟨r, hr, hedge⟩ := (mem_unionKeys s Bucket.parents roles p).mp hpmem
            exact Or.inr ⟨r, hr, reachesPlus_head hedge hreach⟩
      · rintro (hx | ⟨r, hr, hreach⟩)
        · exact Or.inl hx
        · rcases reachesPlus_cases_head hreach with hedge | ⟨b, hedge, hrest⟩
          · refine Or.inr ((ihp x).mpr (Or.inl ?_))
            exact (mem_unionKeys s Bucket.parents roles x).mpr ⟨r, hr, hedge⟩
          · refine Or.inr ((ihp x).mpr (Or.inr ⟨b, ?_, hrest⟩))
            exact (mem_unionKeys s Bucket.parents roles b).mpr ⟨r, hr, hedge⟩

/-- Successful runs of the hierarchy resolver return a duplicate-free list
when the input roles are duplicate-free. -/
theorem allRoles_nodup (s : Store) :
    ∀ fuel roles result, (allRolesT s fuel roles).1 = some result →
      roles.Nodup → result.Nodup := by
  intro fuel
  induction fuel with
  | zero =>
    intro roles result h
    rw [allRolesT_zero] at h
    exact absurd h (by simp)
  | succ f _ =>
    intro roles result h hnd
    by_cases hp : unionKeys s Bucket.parents roles = []
    · rw [allRolesT_base s f roles hp] at h
      obtain rfl : roles = result := by simpa using h
      exact hnd
    · rw [allRolesT_step s f roles hp] at h
      simp only [Option.map_eq_some'] at h
      obtain ⟨pres, _, rfl⟩ := by simpa using h
      exact listUnion_nodup roles pres

/-! Termination of the hierarchy resolver on finite acyclic graphs. -/

theorem pchain_tail {s : Store} {a : String} {l : List String} (h : PChain s (a :: l)) :
    PChain s l := by
  cases h with
  | single _ => exact PChain.nil
  | cons _ b t _ htl => exact htl

theorem pchain_suffix (s : Store) :
    ∀ l₁ l₂ : List String, PChain s (l₁ ++ l₂) → PChain s l₂ := by
  intro l₁
  induction l₁ with
  | nil => intro l₂ h; simpa using h
  | cons a l ih =>
    intro l₂ h
    exact ih l₂ (pchain_tail h)

theorem pchain_reaches (s : Store) :
    ∀ (l : List String) (a b : String), PChain s (a :: l) → b ∈ l → ReachesPlus s a b := by
  intro l
  induction l with
  | nil =>
    intro a b _ hb
    exact absurd hb (List.not_mem_nil b)
  | cons c t ih =>
    intro a b hchain hb
    cases hchain with
    | cons _ _ _ hac htl =>
      rcases List.mem_cons.mp hb with rfl | hb
      · exact reachesPlus_single hac
      · exact reachesPlus_head hac (ih c b htl hb)

theorem not_nodup_split {α : Type} [DecidableEq α] :
    ∀ l : List α, ¬ l.Nodup → ∃ l₁ a l₂ l₃, l = l₁ ++ a :: l₂ ++ a :: l₃ := by
  intro l
  induction l with
  | nil => intro h; exact absurd List.nodup_nil h
  | cons x xs ih =>
    intro h
    by_cases hx : x ∈ xs
    · obtain ⟨l₂, l₃, rfl⟩ := List.append_of_mem hx
      exact ⟨[], x, l₂, l₃, rfl⟩
    · have hxs : ¬ xs.Nodup := by
        intro hn
        exact h (List.nodup_cons.mpr ⟨hx, hn⟩)
      obtain ⟨l₁, a, l₂, l₃, rfl⟩ := ih hxs
      exact ⟨x :: l₁, a, l₂, l₃, rfl⟩

theorem pchain_cycle (s : Store) (l : List String) (hc : PChain s l) (hd : ¬ l.Nodup) :
    ∃ x, ReachesPlus s x x := by
  obtain ⟨l₁, a, l₂, l₃, rfl⟩ := not_nodup_split l hd
  have h2 : PChain s (a :: (l₂ ++ a :: l₃)) := pchain_suffix s l₁ _ (by simpa using hc)
  exact ⟨a, pchain_reaches s _ a a h2 (by simp)⟩

/-- When the resolver runs out of fuel there is a descending chain of that
length through roles with non-empty parent entries, starting inside the
input roles. -/
theorem allRoles_none_chain (s : Store) :
    ∀ fuel roles, (allRolesT s fuel roles).1 = none →
      ∃ l : List String, l.length = fuel ∧ PChain s l ∧
        (∀ x ∈ l, s Bucket.parents x ≠ []) ∧ (∀ a t, l = a :: t → a ∈ roles) := by
  intro fuel
  induction fuel with
  | zero =>
    intro roles _
    exact ⟨[], rfl, PChain.nil, by simp, by simp⟩
  | succ f ih =>
    intro roles h
    by_cases hp : unionKeys s Bucket.parents roles = []
    · rw [allRolesT_base s f roles hp] at h
      exact absurd h (by simp)
    · rw [allRolesT_step s f roles hp] at h
      simp only [Option.map_eq_none'] at h
      obtain ⟨l, hlen, hchain, hne, hhead⟩ := ih (unionKeys s Bucket.parents roles) h
      cases l with
      | nil =>
        obtain ⟨x, hx⟩ := List.exists_mem_of_ne_nil _ hp
        obtain ⟨r, hr, hedge⟩ := (mem_unionKeys s Bucket.parents roles x).mp hx
        refine ⟨[r], by simp at hlen ⊢; omega, PChain.single r, ?_, ?_⟩
        · intro y hy
          rcases List.mem_singleton.mp hy with rfl
          intro hnil
          rw [hnil] at hedge
          exact List.not_mem_nil x hedge
        · intro a t hat
          injection hat with h1 _
          exact h1 ▸ hr
      | cons b t =>
        have hb : b ∈ unionKeys s Bucket.parents roles := hhead b t rfl
        obtain ⟨r, hr, hedge⟩ := (mem_unionKeys s Bucket.parents roles b).mp hb
        refine ⟨r :: b :: t, by simp at hlen ⊢; omega, PChain.cons r b t hedge hchain, ?_, ?_⟩
        · intro y hy
          rcases List.mem_cons.mp hy with rfl | hy
          · intro hnil
            rw [hnil] at hedge
            exact List.not_mem_nil b hedge
          · exact hne y hy
        · intro a t2 hat
          injection hat with h1 _
          exact h1 ▸ hr

/-- On a finite-support acyclic parents graph, fuel one more than the
support size always suffices for the hierarchy resolver. -/
theorem allRoles_terminates (s : Store) (keys : List String)
    (hsupp : ∀ k, k ∉ keys → s Bucket.parents k = []) (hacyc : Acyclic s)
    (roles : List String) : (allRolesT s (keys.length + 1) roles).1 ≠ none := by
  intro h
  obtain ⟨l, hlen, hchain, hne, _⟩ := allRoles_none_chain s (keys.length + 1) roles h
  have hsub : l ⊆ keys := by
    intro x hx
    by_contra hk
    exact hne x hx (hsupp x hk)
  have hnd : ¬ l.Nodup := by
    intro hnd
    have := List.Subperm.length_le (List.Nodup.subperm hnd hsub)
    omega
  obtain ⟨x, hx⟩ := pchain_cycle s l hchain hnd
  exact hacyc x hx

/-! The aggregator computes the union of the grants over the ancestor
closure: the generation-by-generation walk of _resourcePermissions agrees,
as a set, with one union over the flattened closure of _allRoles. -/

theorem resourcePermissions_closure (s : Store) (resource : String) :
    ∀ fuel roles closure ps,
      (allRolesT s fuel roles).1 = some closure →
      (resourcePermissionsT s resource fuel roles).1 = some ps →
      SetEq ps (unionKeys s (allowsBucket resource) closure) := by
  intro fuel
  induction fuel with
  | zero =>
    intro roles closure ps h1 _
    rw [allRolesT_zero] at h1
    exact absurd h1 (by simp)
  | succ f ih =>
    intro roles closure ps h1 h2
    cases roles with
    | nil =>
      rw [resourcePermissionsT_nil] at h2
      obtain rfl : ([] : List String) = ps := by simpa using h2
      rw [allRolesT_base s f [] (unionKeys_nil s Bucket.parents)] at h1
      obtain rfl : ([] : List String) = closure := by simpa using h1
      intro x
      simp [unionKeys_nil]
    | cons r rs =>
      by_cases hp : unionKeys s Bucket.parents (r :: rs) = []
      · rw [allRolesT_base s f _ hp] at h1
        rw [resourcePermissionsT_base s resource f r rs hp] at h2
        obtain rfl : r :: rs = closure := by simpa using h1
        obtain rfl : unionKeys s (allowsBucket resource) (r :: rs) = ps := by simpa using h2
        intro x
        rfl
      · rw [allRolesT_step s f _ hp] at h1
        rw [resourcePermissionsT_step s resource f r rs hp] at h2
        simp only [Option.map_eq_some'] at h1 h2
        obtain ⟨pclosure, hpc, rfl⟩ := h1
        obtain ⟨more, hmore, rfl⟩ := h2
        have hIH := ih _ _ _ hpc hmore
        intro x
        constructor
        · intro hx
          rcases (mem_listUnion _ _ x).mp hx with hx | hx
          · obtain ⟨k, hk, hxx⟩ := (mem_unionKeys s (allowsBucket resource) (r :: rs) x).mp hx
            exact (mem_unionKeys s (allowsBucket resource) (listUnion (r :: rs) pclosure) x).mpr
              ⟨k, (mem_listUnion _ _ k).mpr (Or.inl hk), hxx⟩
          · obtain ⟨k, hk, hxx⟩ := (mem_unionKeys s (allowsBucket resource) pclosure x).mp
              ((hIH x).mp hx)
            exact (mem_unionKeys s (allowsBucket resource) (listUnion (r :: rs) pclosure) x).mpr
              ⟨k, (mem_listUnion _ _ k).mpr (Or.inr hk), hxx⟩
        · intro hx
          obtain ⟨k, hk, hxx⟩ :=
            (mem_unionKeys s (allowsBucket resource) (listUnion (r :: rs) pclosure) x).mp hx
          rcases (mem_listUnion _ _ k).mp hk with hk | hk
          · exact (mem_listUnion _ _ x).mpr
              (Or.inl ((mem_unionKeys s (allowsBucket resource) (r :: rs) x).mpr ⟨k, hk, hxx⟩))
          · exact (mem_listUnion _ _ x).mpr (Or.inr ((hIH x).mpr
              ((mem_unionKeys s (allowsBucket resource) pclosure x).mpr ⟨k, hk, hxx⟩)))

/-! Lemmas about the object model: folding deterministic writes produces
the canonical map with one entry per distinct key. -/

theorem addVals_nil_idem {α : Type} [DecidableEq α] (l : List α) :
    addVals ([] : List α) (addVals [] l) = addVals [] l := by
  rw [addVals_addVals]
  rfl

theorem stdMap_keys {κ α : Type} [DecidableEq κ] (f : κ → α) (ks : List κ) :
    (stdMap f ks).map Prod.fst = addVals [] ks := by
  unfold stdMap
  rw [List.map_map]
  have hcomp : (Prod.fst ∘ fun k : κ => (k, f k)) = id := rfl
  rw [hcomp, List.map_id]

theorem mem_stdMap {κ α : Type} [DecidableEq κ] (f : κ → α) (ks : List κ) (k : κ) (v : α) :
    (k, v) ∈ stdMap f ks ↔ k ∈ ks ∧ v = f k := by
  unfold stdMap
  rw [List.mem_map]
  constructor
  · rintro ⟨k', hk', heq⟩
    have h1 : k' = k := congrArg Prod.fst heq
    have h2 : f k' = v := congrArg Prod.snd heq
    subst h1
    refine ⟨?_, h2.symm⟩
    rcases (mem_addVals [] ks k').mp hk' with h | h
    · exact absurd h (List.not_mem_nil k')
    · exact h
  · rintro ⟨hk, rfl⟩
    exact ⟨k, (mem_addVals [] ks k).mpr (Or.inr hk), rfl⟩

theorem objFold_std {κ α : Type} [DecidableEq κ] (f : κ → α) :
    ∀ (ks ks₀ : List κ),
      ks.foldl (fun m k => objInsert m k (f k)) (stdMap f ks₀) = stdMap f (ks₀ ++ ks) := by
  intro ks
  induction ks with
  | nil => intro ks₀; rw [List.foldl_nil, List.append_nil]
  | cons k ks ih =>
    intro ks₀
    rw [List.foldl_cons]
    have hstep : objInsert (stdMap f ks₀) k (f k) = stdMap f (ks₀ ++ [k]) := by
      by_cases hk : k ∈ addVals ([] : List κ) ks₀
      · have hmapeq : (stdMap f ks₀).map (fun p => if p.1 = k then (k, f k) else p) =
            stdMap f ks₀ := by
          unfold stdMap
          rw [List.map_map]
          apply List.map_congr_left
          intro x _
          by_cases hxk : x = k
          · subst hxk; simp
          · simp [hxk]
        have hany : (stdMap f ks₀).any (fun p => decide (p.1 = k)) = true := by
          rw [List.any_eq_true]
          refine ⟨(k, f k), ?_, by simp⟩
          unfold stdMap
          exact List.mem_map.mpr ⟨k, hk, rfl⟩
        have haddk : addVals ([] : List κ) (ks₀ ++ [k]) = addVals [] ks₀ := by
          rw [addVals_append, addVals_cons, addVals_nil, if_pos hk]
        unfold objInsert
        rw [if_pos hany, hmapeq]
        unfold stdMap
        rw [haddk]
      · have hany : ¬ ((stdMap f ks₀).any (fun p => decide (p.1 = k)) = true) := by
          rw [List.any_eq_true]
          rintro ⟨p, hp, hpk⟩
          unfold stdMap at hp
          obtain ⟨k', hk', rfl⟩ := List.mem_map.mp hp
          simp only [decide_eq_true_eq] at hpk
          exact hk (hpk ▸ hk')
        have haddk : addVals ([] : List κ) (ks₀ ++ [k]) = addVals [] ks₀ ++ [k] := by
          rw [addVals_append, addVals_cons, addVals_nil, if_neg hk]
        unfold objInsert
        rw [if_neg hany]
        unfold stdMap
        rw [haddk, List.map_append]
        simp
    rw [hstep, ih (ks₀ ++ [k])]
    have : ks₀ ++ [k] ++ ks = ks₀ ++ k :: ks := by simp
    rw [this]

theorem objFold_std_nil {κ α : Type} [DecidableEq κ] (f : κ → α) (ks : List κ) :
    ks.foldl (fun m k => objInsert m k (f k)) [] = stdMap f ks := by
  have h := objFold_std f ks []
  simpa [stdMap, addVals_nil] using h

theorem allowsBucket_injective : Function.Injective allowsBucket := by
  intro a b h
  simpa [allowsBucket] using h

theorem addVals_map_inj {κ μ : Type} [DecidableEq κ] [DecidableEq μ] (g : κ → μ)
    (hg : Function.Injective g) :
    ∀ (l acc : List κ), addVals (acc.map g) (l.map g) = (addVals acc l).map g := by
  intro l
  induction l with
  | nil => intro acc; simp [addVals_nil]
  | cons x xs ih =>
    intro acc
    rw [List.map_cons, addVals_cons, addVals_cons]
    by_cases hx : x ∈ acc
    · rw [if_pos (List.mem_map_of_mem g hx), if_pos hx]
      exact ih acc
    · have hgx : g x ∉ acc.map g := by
        intro hmem
        obtain ⟨y, hy, hyx⟩ := List.mem_map.mp hmem
        exact hx (hg hyx ▸ hy)
      rw [if_neg hgx, if_neg hx]
      have hrw : acc.map g ++ [g x] = (acc ++ [x]).map g := by simp
      rw [hrw]
      exact ih (acc ++ [x])

/-! Characterization of the two allowedPermissions strategies. -/

theorem portableFold_none (s : Store) (fuel : Nat) (roles : List String) :
    ∀ (rs : List String) (t₀ : List ReadOp),
      ((rs.foldl
        (fun (acc : Option (List (String × List String)) × List ReadOp) resource =>
          (match acc.1 with
            | none => none
            | some m =>
              match (resourcePermissionsT s resource fuel roles).1 with
              | none => none
              | some ps => some (objInsert m resource ps),
           acc.2 ++ (resourcePermissionsT s resource fuel roles).2))
        (none, t₀)).1 : Option (List (String × List String))) = none := by
  intro rs
  induction rs with
  | nil => intro t₀; rfl
  | cons res rs ih =>
    intro t₀
    rw [List.foldl_cons]
    exact ih _

theorem portableFold_some (s : Store) (fuel : Nat) (roles : List String) :
    ∀ (rs : List String) (m₀ : List (String × List String)) (t₀ : List ReadOp)
      (m : List (String × List String)),
      ((rs.foldl
        (fun (acc : Option (List (String × List String)) × List ReadOp) resource =>
          (match acc.1 with
            | none => none
            | some mm =>
              match (resourcePermissionsT s resource fuel roles).1 with
              | none => none
              | some ps => some (objInsert mm resource ps),
           acc.2 ++ (resourcePermissionsT s resource fuel roles).2))
        (some m₀, t₀)).1 = some m) ↔
      ((∀ res ∈ rs, (resourcePermissionsT s res fuel roles).1 ≠ none) ∧
        m = rs.foldl (fun acc res =>
          objInsert acc res (((resourcePermissionsT s res fuel roles).1).getD [])) m₀) := by
  intro rs
  induction rs with
  | nil =>
    intro m₀ t₀ m
    simp only [List.foldl_nil, Option.some.injEq]
    constructor
    · intro h
      exact ⟨by simp, h.symm⟩
    · rintro ⟨_, rfl⟩
      rfl
  | cons res rs ih =>
    intro m₀ t₀ m
    rw [List.foldl_cons, List.foldl_cons]
    cases hres : (resourcePermissionsT s res fuel roles).1 with
    | none =>
      simp only [hres]
      constructor
      · intro h
        rw [portableFold_none s fuel roles rs _] at h
        exact absurd h (by simp)
      · rintro ⟨hall, _⟩
        exact absurd hres (hall res (List.mem_cons_self res rs))
    | some ps =>
      simp only [hres]
      rw [ih]
      constructor
      · rintro ⟨hall, rfl⟩
        refine ⟨?_, rfl⟩
        intro r hr
        rcases List.mem_cons.mp hr with rfl | hr
        · rw [hres]; simp
        · exact hall r hr
      · rintro ⟨hall, hm⟩
        exact ⟨fun r hr => hall r (List.mem_cons_of_mem res hr), hm⟩

theorem keyFrom_allows (r : String) : keyFromAllowsBucket (allowsBucket r) = r := rfl

/-- A successful portable run yields the canonical object pairing every
requested resource with its aggregated permission set. -/
theorem portable_some (s : Store) (fuel : Nat) (uid : UserID) (resources : List String)
    (m : List (String × List String))
    (h : (allowedPermissionsPortableT s fuel uid resources).1 = some m) :
    (∀ res ∈ resources,
        (resourcePermissionsT s res fuel (s Bucket.users uid.key)).1 ≠ none) ∧
      m = stdMap (fun res =>
        ((resourcePermissionsT s res fuel (s Bucket.users uid.key)).1).getD []) resources := by
  unfold allowedPermissionsPortableT at h
  rw [portableFold_some s fuel (s Bucket.users uid.key) resources [] _ m] at h
  obtain ⟨hall, hm⟩ := h
  refine ⟨hall, ?_⟩
  rw [hm, objFold_std_nil]

/-- A successful optimized run yields the canonical object pairing every
requested resource with the union of its grants over the full hierarchy
closure of the direct roles of the user. -/
theorem optimized_some (s : Store) (fuel : Nat) (uid : UserID) (resources : List String)
    (m : List (String × List String)) (hf : uid.falsy = false)
    (h : (optimizedAllowedPermissionsT s fuel uid resources).1 = some m) :
    ∃ closure, (allUserRolesT s fuel uid).1 = some closure ∧
      m = stdMap (fun r => unionKeys s (allowsBucket r) closure) resources := by
  unfold optimizedAllowedPermissionsT at h
  rw [hf] at h
  simp only [Bool.false_eq_true, if_false] at h
  cases hroles : (allUserRolesT s fuel uid).1 with
  | none =>
    rw [hroles] at h
    exact absurd h (by simp)
  | some closure =>
    rw [hroles] at h
    refine ⟨closure, rfl, ?_⟩
    obtain rfl : _ = m := by simpa using h
    have hresp : unionsOp s (resources.map allowsBucket) closure =
        stdMap (fun b => unionKeys s b closure) (resources.map allowsBucket) := by
      unfold unionsOp
      exact objFold_std_nil _ _
    rw [hresp]
    unfold stdMap
    have haddv : addVals ([] : List Bucket) (resources.map allowsBucket) =
        (addVals [] resources).map allowsBucket := by
      have h2 := addVals_map_inj allowsBucket allowsBucket_injective resources []
      simpa using h2
    rw [haddv, List.map_map, List.foldl_map]
    simp only [Function.comp, keyFrom_allows]
    rw [objFold_std_nil (fun r => unionKeys s (allowsBucket r) closure) (addVals [] resources)]
    unfold stdMap
    rw [addVals_nil_idem]

/-- The equivalence core for the two allowedPermissions strategies: on any
store state and non-falsy user, successful runs of the optimized and the
portable strategy produce the same mapping (identical key sequence,
set-equal permission values). -/
theorem strategies_equiv (s : Store) (fuel : Nat) (uid : UserID) (resources : List String)
    (m1 m2 : List (String × List String)) (hf : uid.falsy = false)
    (h1 : (optimizedAllowedPermissionsT s fuel uid resources).1 = some m1)
    (h2 : (allowedPermissionsPortableT s fuel uid resources).1 = some m2) :
    MapEquiv m1 m2 := by
  obtain ⟨closure, hcl, rfl⟩ := optimized_some s fuel uid resources m1 hf h1
  obtain ⟨hall, rfl⟩ := portable_some s fuel uid resources m2 h2
  constructor
  · rw [stdMap_keys, stdMap_keys]
  · intro k v1 v2 hv1 hv2
    obtain ⟨hk1, rfl⟩ := (mem_stdMap _ _ _ _).mp hv1
    obtain ⟨hk2, rfl⟩ := (mem_stdMap _ _ _ _).mp hv2
    by_cases hd : s Bucket.users uid.key = []
    · have hcl2 : closure = [] := by
        unfold allUserRolesT at hcl
        simp only [hd, if_pos rfl] at hcl
        simpa using hcl.symm
      have hps : (resourcePermissionsT s k fuel (s Bucket.users uid.key)).1 = some [] := by
        rw [hd, resourcePermissionsT_nil]
      rw [hcl2, hps]
      intro x
      simp [unionKeys_nil]
    · have hcl2 : (allRolesT s fuel (s Bucket.users uid.key)).1 = some closure := by
        unfold allUserRolesT at hcl
        simp only [hd, if_neg hd] at hcl
        exact hcl
      obtain ⟨ps, hps⟩ : ∃ ps, (resourcePermissionsT s k fuel (s Bucket.users uid.key)).1 = some ps := by
        cases hx : (resourcePermissionsT s k fuel (s Bucket.users uid.key)).1 with
        | none => exact absurd hx (hall k hk2)
        | some ps => exact ⟨ps, rfl⟩
      have hse := resourcePermissions_closure s k fuel (s Bucket.users uid.key) closure ps hcl2 hps
      rw [hps]
      intro x
      exact (hse x).symm

/-- The aggregated permission set of a resource, expressed over the
ancestor closure predicate. -/
theorem resourcePermissions_semantic (s : Store) (resource : String) (fuel : Nat)
    (roles closure ps : List String)
    (hcl : (allRolesT s fuel roles).1 = some closure)
    (hps : (resourcePermissionsT s resource fuel roles).1 = some ps) :
    ∀ x, x ∈ ps ↔ ∃ role, InClosure s roles role ∧ x ∈ s (allowsBucket resource) role := by
  intro x
  rw [resourcePermissions_closure s resource fuel roles closure ps hcl hps x, mem_unionKeys]
  constructor
  · rintro ⟨k, hk, hx⟩
    exact ⟨k, (allRoles_mem s fuel roles closure hcl k).mp hk, hx⟩
  · rintro ⟨k, hk, hx⟩
    exact ⟨k, (allRoles_mem s fuel roles closure hcl k).mpr hk, hx⟩

/-! Characterization of the whatResources internals. -/

theorem mem_concatFold (s : Store) (x : String) :
    ∀ (cl acc : List String),
      x ∈ cl.foldl (fun acc role => acc ++ s Bucket.resources role) acc ↔
        x ∈ acc ∨ ∃ role ∈ cl, x ∈ s Bucket.resources role := by
  intro cl
  induction cl with
  | nil => intro acc; simp
  | cons r rs ih =>
    intro acc
    rw [List.foldl_cons, ih]
    simp only [List.mem_append, List.mem_cons]
    constructor
    · rintro ((h | h) | ⟨role, hrole, hx⟩)
      · exact Or.inl h
      · exact Or.inr ⟨r, Or.inl rfl, h⟩
      · exact Or.inr ⟨role, Or.inr hrole, hx⟩
    · rintro (h | ⟨role, hrole | hrole, hx⟩)
      · exact Or.inl (Or.inl h)
      · exact Or.inl (Or.inr (hrole ▸ hx))
      · exact Or.inr ⟨role, hrole, hx⟩

/-- Membership in the resource index aggregated over the closure. -/
theorem rolesResources_mem (s : Store) (fuel : Nat) (roles ress : List String)
    (h : rolesResources s fuel roles = some ress) :
    ∀ x, x ∈ ress ↔ ∃ role, InClosure s roles role ∧ x ∈ s Bucket.resources role := by
  unfold rolesResources at h
  cases hcl : (allRolesT s fuel roles).1 with
  | none =>
    rw [hcl] at h
    exact absurd h (by simp)
  | some closure =>
    rw [hcl] at h
    obtain rfl : _ = ress := by simpa using h
    intro x
    rw [mem_concatFold]
    simp only [List.not_mem_nil, false_or]
    constructor
    · rintro ⟨role, hrole, hx⟩
      exact ⟨role, (allRoles_mem s fuel roles closure hcl role).mp hrole, hx⟩
    · rintro ⟨role, hrole, hx⟩
      exact ⟨role, (allRoles_mem s fuel roles closure hcl role).mpr hrole, hx⟩

/-- Success of rolesResources is success of the closure computation. -/
theorem rolesResources_closure (s : Store) (fuel : Nat) (roles ress : List String)
    (h : rolesResources s fuel roles = some ress) :
    ∃ closure, (allRolesT s fuel roles).1 = some closure := by
  unfold rolesResources at h
  cases hcl : (allRolesT s fuel roles).1 with
  | none =>
    rw [hcl] at h
    exact absurd h (by simp)
  | some closure => exact ⟨closure, rfl⟩

theorem permMapFold_none (s : Store) (fuel : Nat) (roles : List String) :
    ∀ rs : List String,
      (rs.foldl
        (fun (acc : Option (List (String × List String))) resource =>
          match acc with
          | none => none
          | some m =>
            match (resourcePermissionsT s resource fuel roles).1 with
            | none => none
            | some ps => some (objInsert m resource ps))
        none) = none := by
  intro rs
  induction rs with
  | nil => rfl
  | cons res rs ih =>
    rw [List.foldl_cons]
    exact ih

theorem permMapFold_some (s : Store) (fuel : Nat) (roles : List String) :
    ∀ (rs : List String) (m₀ m : List (String × List String)),
      (rs.foldl
        (fun (acc : Option (List (String × List String))) resource =>
          match acc with
          | none => none
          | some mm =>
            match (resourcePermissionsT s resource fuel roles).1 with
            | none => none
            | some ps => some (objInsert mm resource ps))
        (some m₀) = some m) ↔
      ((∀ res ∈ rs, (resourcePermissionsT s res fuel roles).1 ≠ none) ∧
        m = rs.foldl (fun acc res =>
          objInsert acc res (((resourcePermissionsT s res fuel roles).1).getD [])) m₀) := by
  intro rs
  induction rs with
  | nil =>
    intro m₀ m
    simp only [List.foldl_nil, Option.some.injEq]
    constructor
    · intro h
      exact ⟨by simp, h.symm⟩
    · rintro ⟨_, rfl⟩
      rfl
  | cons res rs ih =>
    intro m₀ m
    rw [List.foldl_cons, List.foldl_cons]
    cases hres : (resourcePermissionsT s res fuel roles).1 with
    | none =>
      simp only [hres]
      constructor
      · intro h
        rw [permMapFold_none s fuel roles rs] at h
        exact absurd h (by simp)
      · rintro ⟨hall, _⟩
        exact absurd hres (hall res (List.mem_cons_self res rs))
    | some ps =>
      simp only [hres]
      rw [ih]
      constructor
      · rintro ⟨hall, rfl⟩
        refine ⟨?_, rfl⟩
        intro r hr
        rcases List.mem_cons.mp hr with rfl | hr
        · rw [hres]; simp
        · exact hall r hr
      · rintro ⟨hall, hm⟩
        exact ⟨fun r hr => hall r (List.mem_cons_of_mem res hr), hm⟩

theorem permFilterFold_none (s : Store) (fuel : Nat) (roles qs : List String) :
    ∀ rs : List String,
      (rs.foldl
        (fun (acc : Option (List String)) resource =>
          match acc with
          | none => none
          | some l =>
            match (resourcePermissionsT s resource fuel roles).1 with
            | none => none
            | some ps =>
              some (if intersectList qs ps = [] then l else l ++ [resource]))
        none) = none := by
  intro rs
  induction rs with
  | nil => rfl
  | cons res rs ih =>
    rw [List.foldl_cons]
    exact ih

theorem permFilterFold_some (s : Store) (fuel : Nat) (roles qs : List String) :
    ∀ (rs l₀ l : List String),
      (rs.foldl
        (fun (acc : Option (List String)) resource =>
          match acc with
          | none => none
          | some ll =>
            match (resourcePermissionsT s resource fuel roles).1 with
            | none => none
            | some ps =>
              some (if intersectList qs ps = [] then ll else ll ++ [resource]))
        (some l₀) = some l) ↔
      ((∀ res ∈ rs, (resourcePermissionsT s res fuel roles).1 ≠ none) ∧
        l = rs.foldl (fun acc res =>
          if intersectList qs (((resourcePermissionsT s res fuel roles).1).getD []) = []
          then acc else acc ++ [res]) l₀) := by
  intro rs
  induction rs with
  | nil =>
    intro l₀ l
    simp only [List.foldl_nil, Option.some.injEq]
    constructor
    · intro h
      exact ⟨by simp, h.symm⟩
    · rintro ⟨_, rfl⟩
      rfl
  | cons res rs ih =>
    intro l₀ l
    rw [List.foldl_cons, List.foldl_cons]
    cases hres : (resourcePermissionsT s res fuel roles).1 with
    | none =>
      simp only [hres]
      constructor
      · intro h
        rw [permFilterFold_none s fuel roles qs rs] at h
        exact absurd h (by simp)
      · rintro ⟨hall, _⟩
        exact absurd hres (hall res (List.mem_cons_self res rs))
    | some ps =>
      simp only [hres]
      rw [ih]
      constructor
      · rintro ⟨hall, rfl⟩
        refine ⟨?_, rfl⟩
        intro r hr
        rcases List.mem_cons.mp hr with rfl | hr
        · rw [hres]; simp
        · exact hall r hr
      · rintro ⟨hall, hm⟩
        exact ⟨fun r hr => hall r (List.mem_cons_of_mem res hr), hm⟩

theorem mem_selectFold (qs : List String) (f : String → List String) :
    ∀ (rs acc : List String) (x : String),
      x ∈ rs.foldl (fun acc res => if intersectList qs (f res) = [] then acc else acc ++ [res]) acc ↔
        x ∈ acc ∨ (x ∈ rs ∧ intersectList qs (f x) ≠ []) := by
  intro rs
  induction rs with
  | nil => intro acc x; simp
  | cons r rs ih =>
    intro acc x
    rw [List.foldl_cons]
    by_cases hr : intersectList qs (f r) = []
    · rw [if_pos hr, ih]
      simp only [List.mem_cons]
      constructor
      · rintro (h | ⟨hx, hne⟩)
        · exact Or.inl h
        · exact Or.inr ⟨Or.inr hx, hne⟩
      · rintro (h | ⟨hx | hx, hne⟩)
        · exact Or.inl h
        · exact absurd (hx ▸ hr) hne
        · exact Or.inr ⟨hx, hne⟩
    · rw [if_neg hr, ih]
      simp only [List.mem_append, List.mem_singleton, List.mem_cons, List.not_mem_nil, or_false]
      constructor
      · rintro ((h | h) | ⟨hx, hne⟩)
        · exact Or.inl h
        · exact Or.inr ⟨Or.inl h, h ▸ hr⟩
        · exact Or.inr ⟨Or.inr hx, hne⟩
      · rintro (h | ⟨hx | hx, hne⟩)
        · exact Or.inl (Or.inl h)
        · exact Or.inl (Or.inr hx)
        · exact Or.inr ⟨hx, hne⟩

/-- Characterization of the internal whatResources result object (no
permissions argument): keys are exactly the resources indexed under the
ancestor closure, each exactly once, valued by the aggregated permission
set. -/
theorem permMap_char (s : Store) (fuel : Nat) (roles : List String)
    (m : List (String × List String)) (h : permittedResourcesMapT s fuel roles = some m) :
    ((m.map Prod.fst).Nodup) ∧
      (∀ res, (∃ ps, (res, ps) ∈ m) ↔
        ∃ role, InClosure s roles role ∧ res ∈ s Bucket.resources role) ∧
      (∀ res ps, (res, ps) ∈ m →
        ∀ x, x ∈ ps ↔ ∃ role, InClosure s roles role ∧ x ∈ s (allowsBucket res) role) := by
  unfold permittedResourcesMapT at h
  cases hrr : rolesResources s fuel roles with
  | none =>
    rw [hrr] at h
    exact absurd h (by simp)
  | some ress =>
    rw [hrr] at h
    rw [permMapFold_some s fuel roles ress [] m] at h
    obtain ⟨hall, rfl⟩ := h
    obtain ⟨closure, hcl⟩ := rolesResources_closure s fuel roles ress hrr
    refine ⟨?_, ?_, ?_⟩
    · rw [objFold_std_nil, stdMap_keys]
      exact addVals_nodup _ _ List.nodup_nil
    · intro res
      constructor
      · rintro ⟨ps, hmem⟩
        rw [objFold_std_nil] at hmem
        obtain ⟨hres, rfl⟩ := (mem_stdMap _ _ _ _).mp hmem
        exact (rolesResources_mem s fuel roles ress hrr res).mp hres
      · intro hex
        have hres : res ∈ ress := (rolesResources_mem s fuel roles ress hrr res).mpr hex
        refine ⟨((resourcePermissionsT s res fuel roles).1).getD [], ?_⟩
        rw [objFold_std_nil]
        exact (mem_stdMap _ _ _ _).mpr ⟨hres, rfl⟩
    · intro res ps hmem x
      rw [objFold_std_nil] at hmem
      obtain ⟨hres, rfl⟩ := (mem_stdMap _ _ _ _).mp hmem
      obtain ⟨ps', hps'⟩ : ∃ ps', (resourcePermissionsT s res fuel roles).1 = some ps' := by
        cases hx : (resourcePermissionsT s res fuel roles).1 with
        | none => exact absurd hx (hall res hres)
        | some v => exact ⟨v, rfl⟩
      rw [hps']
      exact resourcePermissions_semantic s res fuel roles closure ps' hcl hps' x

/-- Characterization of the internal whatResources result array (with a
permissions argument): exactly the resources of the closure-indexed set
whose aggregated permission set meets the requested permissions. -/
theorem permFilter_char (s : Store) (fuel : Nat) (roles qs : List String)
    (l : List String) (h : permittedResourcesFilterT s fuel roles qs = some l) :
    ∀ res, res ∈ l ↔
      ((∃ role, InClosure s roles role ∧ res ∈ s Bucket.resources role) ∧
        ∃ q ∈ qs, ∃ role, InClosure s roles role ∧ q ∈ s (allowsBucket res) role) := by
  unfold permittedResourcesFilterT at h
  cases hrr : rolesResources s fuel roles with
  | none =>
    rw [hrr] at h
    exact absurd h (by simp)
  | some ress =>
    rw [hrr] at h
    rw [permFilterFold_some s fuel roles qs ress [] l] at h
    obtain ⟨hall, rfl⟩ := h
    obtain ⟨closure, hcl⟩ := rolesResources_closure s fuel roles ress hrr
    intro res
    rw [mem_selectFold qs _ ress [] res]
    simp only [List.not_mem_nil, false_or]
    constructor
    · rintro ⟨hres, hne⟩
      refine ⟨(rolesResources_mem s fuel roles ress hrr res).mp hres, ?_⟩
      obtain ⟨ps', hps'⟩ : ∃ ps', (resourcePermissionsT s res fuel roles).1 = some ps' := by
        cases hx : (resourcePermissionsT s res fuel roles).1 with
        | none => exact absurd hx (hall res hres)
        | some v => exact ⟨v, rfl⟩
      rw [hps'] at hne
      obtain ⟨q, hq, hqps⟩ := (intersectList_ne_nil qs ps').mp hne
      exact ⟨q, hq, (resourcePermissions_semantic s res fuel roles closure ps' hcl hps' q).mp hqps⟩
    · rintro ⟨hexists, q, hq, role, hrole, hqx⟩
      have hres : res ∈ ress := (rolesResources_mem s fuel roles ress hrr res).mpr hexists
      refine ⟨hres, ?_⟩
      obtain ⟨ps', hps'⟩ : ∃ ps', (resourcePermissionsT s res fuel roles).1 = some ps' := by
        cases hx : (resourcePermissionsT s res fuel roles).1 with
        | none => exact absurd hx (hall res hres)
        | some v => exact ⟨v, rfl⟩
      rw [hps']
      exact (intersectList_ne_nil qs ps').mpr
        ⟨q, hq, (resourcePermissions_semantic s res fuel roles closure ps' hcl hps' q).mpr
          ⟨role, hrole, hqx⟩⟩

/-! Pointwise evaluation of the store operations. -/

theorem Store.addOp_same (s : Store) (b : Bucket) (k : String) (vs : List String) :
    s.addOp b k vs b k = addVals (s b k) vs := by
  simp [Store.addOp]

theorem Store.addOp_ne (s : Store) (b : Bucket) (k : String) (vs : List String)
    (b' : Bucket) (k' : String) (h : ¬ (b' = b ∧ k' = k)) :
    s.addOp b k vs b' k' = s b' k' := by
  simp only [Store.addOp, if_neg h]

theorem Store.removeOp_same (s : Store) (b : Bucket) (k : String) (vs : List String) :
    s.removeOp b k vs b k = removeAll (s b k) vs := by
  simp [Store.removeOp]

theorem Store.removeOp_ne (s : Store) (b : Bucket) (k : String) (vs : List String)
    (b' : Bucket) (k' : String) (h : ¬ (b' = b ∧ k' = k)) :
    s.removeOp b k vs b' k' = s b' k' := by
  simp only [Store.removeOp, if_neg h]

theorem Store.delOp_mem (s : Store) (b : Bucket) (ks : List String) (k : String)
    (h : k ∈ ks) : s.delOp b ks b k = [] := by
  simp [Store.delOp, h]

theorem Store.delOp_ne (s : Store) (b : Bucket) (ks : List String)
    (b' : Bucket) (k' : String) (h : ¬ (b' = b ∧ k' ∈ ks)) :
    s.delOp b ks b' k' = s b' k' := by
  simp only [Store.delOp, if_neg h]

/-- Pointwise value of the batch that clears allows(resource)[role] for
every resource of a list. -/
theorem delFold_apply (role : String) (resources : List String) :
    ∀ (s : Store) (b : Bucket) (k : String),
      (resources.foldl (fun acc resource => acc.delOp (allowsBucket resource) [role]) s) b k =
        if (∃ res ∈ resources, b = allowsBucket res) ∧ k = role then [] else s b k := by
  induction resources with
  | nil =>
    intro s b k
    simp
  | cons r rs ih =>
    intro s b k
    rw [List.foldl_cons, ih]
    by_cases hk : k = role
    · by_cases hb : ∃ res ∈ rs, b = allowsBucket res
      · rw [if_pos ⟨hb, hk⟩]
        obtain ⟨res, hres, rfl⟩ := hb
        rw [if_pos ⟨⟨res, List.mem_cons_of_mem r hres, rfl⟩, hk⟩]
      · rw [if_neg (by rintro ⟨h, _⟩; exact hb h)]
        by_cases hbr : b = allowsBucket r
        · subst hbr
          rw [hk]
          rw [Store.delOp_mem s (allowsBucket r) [role] role (by simp)]
          rw [if_pos ⟨⟨r, List.mem_cons_self r rs, rfl⟩, rfl⟩]
        · rw [Store.delOp_ne s (allowsBucket r) [role] b k (by rintro ⟨h, _⟩; exact hbr h)]
          rw [if_neg ?hcond]
          case hcond =>
            rintro ⟨⟨res, hres, rfl⟩, _⟩
            rcases List.mem_cons.mp hres with rfl | hres
            · exact hbr rfl
            · exact hb ⟨res, hres, rfl⟩
    · rw [if_neg (by rintro ⟨_, h⟩; exact hk h)]
      rw [if_neg (by rintro ⟨_, h⟩; exact hk h)]
      exact Store.delOp_ne s (allowsBucket r) [role] b k (by rintro ⟨_, h⟩; exact hk (by simpa using h))

theorem removeRole_users (s : Store) (role : String) (u : String) :
    (removeRole s role) Bucket.users u = s Bucket.users u := by
  unfold removeRole
  rw [Store.removeOp_ne _ _ _ _ _ _ (by rintro ⟨h, _⟩; cases h)]
  rw [Store.delOp_ne _ _ _ _ _ (by rintro ⟨h, _⟩; cases h)]
  rw [Store.delOp_ne _ _ _ _ _ (by rintro ⟨h, _⟩; cases h)]
  rw [Store.delOp_ne _ _ _ _ _ (by rintro ⟨h, _⟩; cases h)]
  rw [delFold_apply]
  rw [if_neg (by rintro ⟨⟨res, _, h⟩, _⟩; cases h)]

theorem removeRole_allows_other (s : Store) (role res r2 : String) (h : r2 ≠ role) :
    (removeRole s role) (allowsBucket res) r2 = s (allowsBucket res) r2 := by
  unfold removeRole
  rw [Store.removeOp_ne _ _ _ _ _ _ (by rintro ⟨hb, _⟩; cases hb)]
  rw [Store.delOp_ne _ _ _ _ _ (by rintro ⟨hb, _⟩; cases hb)]
  rw [Store.delOp_ne _ _ _ _ _ (by rintro ⟨hb, _⟩; cases hb)]
  rw [Store.delOp_ne _ _ _ _ _ (by rintro ⟨hb, _⟩; cases hb)]
  rw [delFold_apply]
  rw [if_neg (by rintro ⟨_, hk⟩; exact h hk)]

theorem removeRole_allows_indexed (s : Store) (role res : String)
    (h : res ∈ s Bucket.resources role) :
    (removeRole s role) (allowsBucket res) role = [] := by
  unfold removeRole
  rw [Store.removeOp_ne _ _ _ _ _ _ (by rintro ⟨hb, _⟩; cases hb)]
  rw [Store.delOp_ne _ _ _ _ _ (by rintro ⟨hb, _⟩; cases hb)]
  rw [Store.delOp_ne _ _ _ _ _ (by rintro ⟨hb, _⟩; cases hb)]
  rw [Store.delOp_ne _ _ _ _ _ (by rintro ⟨hb, _⟩; cases hb)]
  rw [delFold_apply]
  rw [if_pos ⟨⟨res, h, rfl⟩, rfl⟩]

theorem removeRole_resources (s : Store) (role : String) :
    (removeRole s role) Bucket.resources role = [] := by
  unfold removeRole
  rw [Store.removeOp_ne _ _ _ _ _ _ (by rintro ⟨hb, _⟩; cases hb)]
  rw [Store.delOp_ne _ _ _ _ _ (by rintro ⟨hb, _⟩; cases hb)]
  rw [Store.delOp_ne _ _ _ _ _ (by rintro ⟨hb, _⟩; cases hb)]
  exact Store.delOp_mem _ _ _ _ (by simp)

theorem removeRole_parents (s : Store) (role : String) :
    (removeRole s role) Bucket.parents role = [] := by
  unfold removeRole
  rw [Store.removeOp_ne _ _ _ _ _ _ (by rintro ⟨hb, _⟩; cases hb)]
  rw [Store.delOp_ne _ _ _ _ _ (by rintro ⟨hb, _⟩; cases hb)]
  exact Store.delOp_mem _ _ _ _ (by simp)

theorem removeRole_roles (s : Store) (role : String) :
    (removeRole s role) Bucket.roles role = [] := by
  unfold removeRole
  rw [Store.removeOp_ne _ _ _ _ _ _ (by rintro ⟨hb, _⟩; cases hb)]
  exact Store.delOp_mem _ _ _ _ (by simp)

theorem removeRole_meta (s : Store) (role : String) :
    (removeRole s role) Bucket.meta "roles" = removeAll (s Bucket.meta "roles") [role] := by
  unfold removeRole
  rw [Store.removeOp_same]
  congr 1
  rw [Store.delOp_ne _ _ _ _ _ (by rintro ⟨hb, _⟩; cases hb)]
  rw [Store.delOp_ne _ _ _ _ _ (by rintro ⟨hb, _⟩; cases hb)]
  rw [Store.delOp_ne _ _ _ _ _ (by rintro ⟨hb, _⟩; cases hb)]
  rw [delFold_apply]
  rw [if_neg (by rintro ⟨⟨res, _, hb⟩, _⟩; cases hb)]

theorem removeRole_frame (s : Store) (role : String) (b : Bucket) (k : String)
    (hallows : ∀ res ∈ s Bucket.resources role, ¬ (b = allowsBucket res ∧ k = role))
    (hres : ¬ (b = Bucket.resources ∧ k = role))
    (hpar : ¬ (b = Bucket.parents ∧ k = role))
    (hrol : ¬ (b = Bucket.roles ∧ k = role))
    (hmeta : ¬ (b = Bucket.meta ∧ k = "roles")) :
    (removeRole s role) b k = s b k := by
  unfold removeRole
  rw [Store.removeOp_ne _ _ _ _ _ _ hmeta]
  rw [Store.delOp_ne _ _ _ _ _ (by rintro ⟨hb, hk⟩; exact hrol ⟨hb, by simpa using hk⟩)]
  rw [Store.delOp_ne _ _ _ _ _ (by rintro ⟨hb, hk⟩; exact hpar ⟨hb, by simpa using hk⟩)]
  rw [Store.delOp_ne _ _ _ _ _ (by rintro ⟨hb, hk⟩; exact hres ⟨hb, by simpa using hk⟩)]
  rw [delFold_apply]
  rw [if_neg (by rintro ⟨⟨res, hresmem, hb⟩, hk⟩; exact hallows res hresmem ⟨hb, hk⟩)]

/-! Lemmas about allow. -/

theorem allow_single (s : Store) (r res : String) (A : List String) :
    allow s [r] [res] A =
      ((s.addOp Bucket.meta "roles" [r]).addOp (allowsBucket res) r A).addOp
        Bucket.resources r [res] := rfl

theorem allow_single_allows (s : Store) (r res : String) (A : List String) :
    allow s [r] [res] A (allowsBucket res) r = addVals (s (allowsBucket res) r) A := by
  rw [allow_single]
  rw [Store.addOp_ne _ _ _ _ _ _ (by rintro ⟨hb, _⟩; cases hb)]
  rw [Store.addOp_same]
  rw [Store.addOp_ne _ _ _ _ _ _ (by rintro ⟨hb, _⟩; cases hb)]

theorem allow_single_users (s : Store) (r res : String) (A : List String) (u : String) :
    allow s [r] [res] A Bucket.users u = s Bucket.users u := by
  rw [allow_single]
  rw [Store.addOp_ne _ _ _ _ _ _ (by rintro ⟨hb, _⟩; cases hb)]
  rw [Store.addOp_ne _ _ _ _ _ _ (by rintro ⟨hb, _⟩; cases hb)]
  rw [Store.addOp_ne _ _ _ _ _ _ (by rintro ⟨hb, _⟩; cases hb)]

theorem allow_single_parents (s : Store) (r res : String) (A : List String) (k : String) :
    allow s [r] [res] A Bucket.parents k = s Bucket.parents k := by
  rw [allow_single]
  rw [Store.addOp_ne _ _ _ _ _ _ (by rintro ⟨hb, _⟩; cases hb)]
  rw [Store.addOp_ne _ _ _ _ _ _ (by rintro ⟨hb, _⟩; cases hb)]
  rw [Store.addOp_ne _ _ _ _ _ _ (by rintro ⟨hb, _⟩; cases hb)]

theorem addVals_listUnion {α : Type} [DecidableEq α] (v A B : List α) :
    addVals v (listUnion A B) = addVals (addVals v A) B := by
  unfold listUnion
  rw [addVals_addVals]
  have h : addVals v (addVals [] A) = addVals v A := by
    rw [addVals_addVals]
    rfl
  rw [h]

theorem addVals_subset {α : Type} [DecidableEq α] :
    ∀ (A v : List α), (∀ p ∈ A, p ∈ v) → addVals v A = v := by
  intro A
  induction A with
  | nil => intro v _; rfl
  | cons a A ih =>
    intro v h
    rw [addVals_cons, if_pos (h a (List.mem_cons_self a A))]
    exact ih v (fun p hp => h p (List.mem_cons_of_mem a hp))

theorem addOp_mono (s : Store) (b : Bucket) (k : String) (vs : List String)
    (b' : Bucket) (k' : String) (v : String) (h : v ∈ s b' k') :
    v ∈ s.addOp b k vs b' k' := by
  unfold Store.addOp
  by_cases hc : b' = b ∧ k' = k
  · rw [if_pos hc]
    obtain ⟨rfl, rfl⟩ := hc
    exact (mem_addVals _ _ _).mpr (Or.inl h)
  · rw [if_neg hc]
    exact h

theorem foldl_store_mono {β : Type} (f : Store → β → Store)
    (hf : ∀ (s : Store) (x : β) (b : Bucket) (k : String) (v : String),
      v ∈ s b k → v ∈ f s x b k) :
    ∀ (l : List β) (s : Store) (b : Bucket) (k : String) (v : String),
      v ∈ s b k → v ∈ (l.foldl f s) b k := by
  intro l
  induction l with
  | nil => intro s b k v h; exact h
  | cons x xs ih =>
    intro s b k v h
    rw [List.foldl_cons]
    exact ih (f s x) b k v (hf s x b k v h)

/-- allow only ever inserts: every stored value survives it, in every
bucket. -/
theorem allow_mono (s : Store) (roles resources perms : List String)
    (b : Bucket) (k : String) (v : String) (h : v ∈ s b k) :
    v ∈ allow s roles resources perms b k := by
  unfold allow
  apply foldl_store_mono (fun acc role => acc.addOp Bucket.resources role resources)
    (fun s x b k v hv => addOp_mono s _ _ _ b k v hv)
  apply foldl_store_mono
    (fun accR resource =>
      roles.foldl (fun acc role => acc.addOp (allowsBucket resource) role perms) accR)
    (fun s x b k v hv =>
      foldl_store_mono (fun acc role => acc.addOp (allowsBucket x) role perms)
        (fun s y b k v hv2 => addOp_mono s _ _ _ b k v hv2) roles s b k v hv)
  exact addOp_mono s _ _ _ b k v h

/-! Lemmas for the revocation scenario. -/

theorem addUserRoles_single (s : Store) (uid : UserID) (r : String) :
    addUserRoles s uid [r] =
      ((s.addOp Bucket.meta "users" [uid.key]).addOp Bucket.users uid.key [r]).addOp
        Bucket.roles r [uid.key] := rfl

theorem addUserRoles_single_users (s : Store) (uid : UserID) (r : String) :
    addUserRoles s uid [r] Bucket.users uid.key = addVals (s Bucket.users uid.key) [r] := by
  rw [addUserRoles_single]
  rw [Store.addOp_ne _ _ _ _ _ _ (by rintro ⟨hb, _⟩; cases hb)]
  rw [Store.addOp_same]
  rw [Store.addOp_ne _ _ _ _ _ _ (by rintro ⟨hb, _⟩; cases hb)]

theorem addUserRoles_single_allows (s : Store) (uid : UserID) (r res k : String) :
    addUserRoles s uid [r] (allowsBucket res) k = s (allowsBucket res) k := by
  rw [addUserRoles_single]
  rw [Store.addOp_ne _ _ _ _ _ _ (by rintro ⟨hb, _⟩; cases hb)]
  rw [Store.addOp_ne _ _ _ _ _ _ (by rintro ⟨hb, _⟩; cases hb)]
  rw [Store.addOp_ne _ _ _ _ _ _ (by rintro ⟨hb, _⟩; cases hb)]

theorem addUserRoles_single_parents (s : Store) (uid : UserID) (r k : String) :
    addUserRoles s uid [r] Bucket.parents k = s Bucket.parents k := by
  rw [addUserRoles_single]
  rw [Store.addOp_ne _ _ _ _ _ _ (by rintro ⟨hb, _⟩; cases hb)]
  rw [Store.addOp_ne _ _ _ _ _ _ (by rintro ⟨hb, _⟩; cases hb)]
  rw [Store.addOp_ne _ _ _ _ _ _ (by rintro ⟨hb, _⟩; cases hb)]

theorem removePermissions_single_some (s : Store) (role res : String) (ps : List String) :
    removePermissions s role [res] (some ps) =
      (if (s.removeOp (allowsBucket res) role ps) (allowsBucket res) role = []
        then (s.removeOp (allowsBucket res) role ps).removeOp Bucket.resources role [res]
        else s.removeOp (allowsBucket res) role ps) := rfl

/-! Remaining helper lemmas for the claim theorems. -/

theorem unionKeys_single (s : Store) (b : Bucket) (k : String) :
    unionKeys s b [k] = addVals [] (s b k) := rfl

theorem isAllowedT_eval (s : Store) (fuel : Nat) (uid : UserID) (resource : String)
    (permissions : List String) (h : s Bucket.users uid.key ≠ []) :
    (isAllowedT s fuel uid resource permissions).1 =
      (checkPermissionsT s resource fuel (s Bucket.users uid.key) permissions).1 := by
  unfold isAllowedT areAnyRolesAllowedT
  simp only [if_neg h]

theorem parentStore_reaches {x y : String} (h : ReachesPlus parentStore x y) :
    x = "r" ∧ y = "a" := by
  have h2 : Relation.TransGen (fun a b => b ∈ parentStore Bucket.parents a) x y := h
  clear h
  induction h2 with
  | single hxy =>
    by_cases hx : x = "r"
    · subst hx
      simp [parentStore] at hxy
      exact ⟨rfl, hxy⟩
    · simp [parentStore, hx] at hxy
  | tail hxz hzy ih =>
    obtain ⟨rfl, rfl⟩ := ih
    simp [parentStore] at hzy

theorem parentStore_acyclic : Acyclic parentStore := by
  intro x hx
  obtain ⟨h1, h2⟩ := parentStore_reaches hx
  rw [h1] at h2
  exact absurd h2 (by decide)

/-- C1: the permission check (areAnyRolesAllowed / _checkPermissions)
follows exactly the spec step relation for every non-empty role list,
resource and permission list: every answer of the checker is derivable in
the step relation and conversely; for non-empty roles areAnyRolesAllowed
is exactly _checkPermissions; and a role granted the wildcard on a
resource makes every permission query on that resource true. -/
theorem c1_check_permissions_step_relation (s : Store) (resource : String) :
    (∀ fuel roles permissions b,
        (checkPermissionsT s resource fuel roles permissions).1 = some b →
        CheckRel s resource roles permissions b) ∧
    (∀ roles permissions b,
        CheckRel s resource roles permissions b →
        ∃ fuel, (checkPermissionsT s resource fuel roles permissions).1 = some b) ∧
    (∀ fuel roles permissions, roles ≠ [] →
        areAnyRolesAllowedT s resource fuel roles permissions =
          checkPermissionsT s resource fuel roles permissions) ∧
    (∀ fuel roles permissions r, r ∈ roles → "*" ∈ s (allowsBucket resource) r →
        (areAnyRolesAllowedT s resource (fuel + 1) roles permissions).1 = some true) := by
  refine ⟨checkPermissions_sound s resource, checkPermissions_complete s resource, ?_, ?_⟩
  · intro fuel roles permissions hne
    unfold areAnyRolesAllowedT
    rw [if_neg hne]
  · intro fuel roles permissions r hr hw
    have hne : roles ≠ [] := by
      rintro rfl
      exact absurd hr (List.not_mem_nil r)
    have hwu : "*" ∈ unionKeys s (allowsBucket resource) roles :=
      (mem_unionKeys _ _ _ _).mpr ⟨r, hr, hw⟩
    unfold areAnyRolesAllowedT
    rw [if_neg hne, checkPermissionsT_wild s resource fuel roles permissions hwu]

/-- Witness for C1 at concrete states: the hierarchy scenario reaches
ALLOWED through an ascend step, and a wildcard grant answers an arbitrary
permission query. -/
theorem c1_witness :
    CheckRel hierStore "x" ["child"] ["read"] true ∧
      (areAnyRolesAllowedT c2Store "res" 1 ["r"] ["edit"]).1 = some true :=
  ⟨(c1_check_permissions_step_relation hierStore "x").1 2 ["child"] ["read"] true (by decide),
    (c1_check_permissions_step_relation c2Store "res").2.2.2 0 ["r"] ["edit"] "r"
      (by decide) (by decide)⟩

/-- C4: a user id with no (or an empty) entry in the users bucket is
denied with exactly one store read — the users lookup — and no allows or
parents lookup; areAnyRolesAllowed of an empty role list is false with no
store read at all.  In this embedding an absent key and an empty entry are
the same store state, as in the backend contract. -/
theorem c4_empty_roles_denied (s : Store) (fuel : Nat) (resource : String)
    (permissions : List String) :
    (∀ uid : UserID, s Bucket.users uid.key = [] →
        isAllowedT s fuel uid resource permissions =
          (some false, [ReadOp.get Bucket.users uid.key])) ∧
    areAnyRolesAllowedT s resource fuel [] permissions = (some false, []) := by
  constructor
  · intro uid h
    unfold isAllowedT
    simp only [h, if_pos rfl]
    simp
  · unfold areAnyRolesAllowedT
    rw [if_pos rfl]

/-- Witness for C4: the ghost user of the empty store. -/
theorem c4_witness :
    isAllowedT emptyStore 1 (UserID.str "ghost") "blogs" ["view"] =
        (some false, [ReadOp.get Bucket.users "ghost"]) ∧
      areAnyRolesAllowedT emptyStore "blogs" 1 [] ["view"] = (some false, []) :=
  ⟨(c4_empty_roles_denied emptyStore 1 "blogs" ["view"]).1 (UserID.str "ghost") rfl,
    (c4_empty_roles_denied emptyStore 1 "blogs" ["view"]).2⟩

/-- C6: on every successful run, the hierarchy resolver returns the input
roles unioned with every role transitively reachable via parents edges, as
a set — each such role exactly once when the input is duplicate-free — and
on a parents graph with finite support and no cycle, fuel one more than
the support size always succeeds (the recursion stops at the first
generation with an empty parent union). -/
theorem c6_all_roles_closure :
    (∀ (s : Store) (fuel : Nat) (roles result : List String),
        (allRolesT s fuel roles).1 = some result → roles.Nodup →
        ((∀ x, x ∈ result ↔ x ∈ roles ∨ ∃ r ∈ roles, ReachesPlus s r x) ∧ result.Nodup)) ∧
    (∀ (s : Store) (keys roles : List String),
        (∀ k, k ∉ keys → s Bucket.parents k = []) → Acyclic s →
        (allRolesT s (keys.length + 1) roles).1 ≠ none) :=
  ⟨fun s fuel roles result h hnd =>
      ⟨fun x => allRoles_mem s fuel roles result h x, allRoles_nodup s fuel roles result h hnd⟩,
    fun s keys roles hsupp hacyc => allRoles_terminates s keys hsupp hacyc roles⟩

/-- Witness for C6 at the one-edge store: closure characterization and
termination with the computed fuel bound. -/
theorem c6_witness :
    ((∀ x, x ∈ ["r", "a"] ↔ x ∈ ["r"] ∨ ∃ q ∈ ["r"], ReachesPlus parentStore q x) ∧
        (["r", "a"] : List String).Nodup) ∧
      (allRolesT parentStore 2 ["r"]).1 ≠ none := by
  constructor
  · exact c6_all_roles_closure.1 parentStore 2 ["r"] ["r", "a"] (by decide) (by decide)
  · have hsupp : ∀ k, k ∉ ["r"] → parentStore Bucket.parents k = [] := by
      intro k hk
      have hne : k ≠ "r" := by simpa using hk
      simp [parentStore, hne]
    exact c6_all_roles_closure.2 parentStore ["r"] ["r"] hsupp parentStore_acyclic

/-- C7: allow is additive and idempotent on the grant set: two allows on
the same role and resource equal one allow of the union; granting only
already-held permissions leaves the grant set unchanged; and allow never
removes an existing value from any bucket. -/
theorem c7_allow_additive (s : Store) (r res : String) (A B : List String) :
    (allow (allow s [r] [res] A) [r] [res] B (allowsBucket res) r =
        allow s [r] [res] (listUnion A B) (allowsBucket res) r) ∧
    ((∀ p ∈ A, p ∈ s (allowsBucket res) r) →
        allow s [r] [res] A (allowsBucket res) r = s (allowsBucket res) r) ∧
    (∀ (roles resources perms : List String) (b : Bucket) (k : String) (v : String),
        v ∈ s b k → v ∈ allow s roles resources perms b k) := by
  refine ⟨?_, ?_, fun roles resources perms b k v h => allow_mono s roles resources perms b k v h⟩
  · rw [allow_single_allows, allow_single_allows, allow_single_allows, addVals_listUnion]
  · intro h
    rw [allow_single_allows, addVals_subset A _ h]

/-- Witness for C7: re-granting the held permission at the demo state is a
no-op on the grant set, and the held grant survives a further allow. -/
theorem c7_witness :
    (allow demoStore ["r"] ["blogs"] ["view"] (allowsBucket "blogs") "r" =
        demoStore (allowsBucket "blogs") "r") ∧
      "view" ∈ allow demoStore ["r2"] ["blogs"] ["edit"] (allowsBucket "blogs") "r" :=
  ⟨(c7_allow_additive demoStore "r" "blogs" ["view"] []).2.1 (by decide),
    (c7_allow_additive demoStore "r" "blogs" ["view"] []).2.2 ["r2"] ["blogs"] ["edit"]
      (allowsBucket "blogs") "r" "view" (by decide)⟩

/-- C9: an empty asked-permission list is vacuously satisfied: for every
store state, non-empty role list and resource, areAnyRolesAllowed with no
asked permissions is true, and isAllowed with no asked permissions is
true for every user with at least one direct role, even when nothing was
ever granted on the resource. -/
theorem c9_empty_permissions (s : Store) (resource : String) (fuel : Nat) :
    (∀ roles, roles ≠ [] →
        (areAnyRolesAllowedT s resource (fuel + 1) roles []).1 = some true) ∧
    (∀ uid : UserID, s Bucket.users uid.key ≠ [] →
        (isAllowedT s (fuel + 1) uid resource []).1 = some true) := by
  have hcheck : ∀ roles,
      (checkPermissionsT s resource (fuel + 1) roles []).1 = some true := by
    intro roles
    by_cases hw : "*" ∈ unionKeys s (allowsBucket resource) roles
    · rw [checkPermissionsT_wild s resource fuel roles [] hw]
    · rw [checkPermissionsT_granted s resource fuel roles [] hw (by simp)]
  constructor
  · intro roles hne
    unfold areAnyRolesAllowedT
    rw [if_neg hne]
    exact hcheck roles
  · intro uid hne
    rw [isAllowedT_eval s (fuel + 1) uid resource [] hne]
    exact hcheck _

/-- Witness for C9: the demo user holds a role with no grant on the empty
permission query over a never-granted resource. -/
theorem c9_witness :
    (areAnyRolesAllowedT demoStore "nothing" 1 ["r"] []).1 = some true ∧
      (isAllowedT demoStore 1 (UserID.str "u") "nothing" []).1 = some true :=
  ⟨(c9_empty_permissions demoStore "nothing" 0).1 ["r"] (by decide),
    (c9_empty_permissions demoStore "nothing" 0).2 (UserID.str "u") (by decide)⟩

/-- C3 (code bug): the mapping the portable strategy computes does agree
with optimizedAllowedPermissions — for every store state, non-falsy user
and resource list, successful runs of the two strategies produce the same
resource-to-permission-set mapping (first conjunct, about the result
object the portable branch builds) — but the portable branch of
allowedPermissions as written returns await bluebird.all(...) instead of
that object, an array of undefined values, so the public function under
the two capability configurations returns different values at the same
state (second and third conjuncts). -/
theorem c3_allowed_permissions :
    (∀ (s : Store) (fuel : Nat) (uid : UserID) (resources : List String)
        (m1 m2 : List (String × List String)),
        uid.falsy = false →
        (optimizedAllowedPermissionsT s fuel uid resources).1 = some m1 →
        (allowedPermissionsPortableT s fuel uid resources).1 = some m2 →
        MapEquiv m1 m2) ∧
    (allowedPermissionsT demoStore true 2 (UserID.str "u") ["blogs"]).1 =
        some (APValue.obj [("blogs", ["view"])]) ∧
    (allowedPermissionsT demoStore false 2 (UserID.str "u") ["blogs"]).1 =
        some (APValue.arr [()]) :=
  ⟨fun s fuel uid resources m1 m2 hf h1 h2 =>
      strategies_equiv s fuel uid resources m1 m2 hf h1 h2,
    by decide, by decide⟩

/-- Witness for C3: the two strategies agree at the demo state. -/
theorem c3_witness : MapEquiv [("blogs", ["view"])] [("blogs", ["view"])] :=
  c3_allowed_permissions.1 demoStore 2 (UserID.str "u") ["blogs"]
    [("blogs", ["view"])] [("blogs", ["view"])] (by decide) (by decide) (by decide)

/-- C8 (code bug): the result object whatResources builds in the
no-permissions mode has exactly the resources indexed under the ancestor
closure as keys, each once, valued by the aggregated permission sets, and
the filtered mode selects exactly the resources whose aggregated set meets
the requested permissions (first two conjuncts) — but permittedResources
as written returns await bluebird.all(...), an array of undefined values,
discarding that result (third conjunct: at the demo state the public
return is an array of units while the built object holds the grants). -/
theorem c8_what_resources :
    (∀ (s : Store) (fuel : Nat) (roles : List String) (m : List (String × List String)),
        permittedResourcesMapT s fuel roles = some m →
        ((m.map Prod.fst).Nodup ∧
          (∀ res, (∃ ps, (res, ps) ∈ m) ↔
            ∃ role, InClosure s roles role ∧ res ∈ s Bucket.resources role) ∧
          (∀ res ps, (res, ps) ∈ m →
            ∀ x, x ∈ ps ↔ ∃ role, InClosure s roles role ∧ x ∈ s (allowsBucket res) role))) ∧
    (∀ (s : Store) (fuel : Nat) (roles qs l : List String),
        permittedResourcesFilterT s fuel roles qs = some l →
        ∀ res, res ∈ l ↔
          ((∃ role, InClosure s roles role ∧ res ∈ s Bucket.resources role) ∧
            ∃ q ∈ qs, ∃ role, InClosure s roles role ∧ q ∈ s (allowsBucket res) role)) ∧
    (whatResourcesV1 c8Store 2 ["bar"] none = some [()] ∧
      permittedResourcesMapT c8Store 2 ["bar"] = some [("blogs", ["view", "delete"])]) :=
  ⟨fun s fuel roles m h => permMap_char s fuel roles m h,
    fun s fuel roles qs l h => permFilter_char s fuel roles qs l h,
    by decide, by decide⟩

/-- Witness for C8: the filtered mode at the demo state selects blogs for
the view permission. -/
theorem c8_witness :
    "blogs" ∈ ["blogs"] ↔
      ((∃ role, InClosure c8Store ["bar"] role ∧ "blogs" ∈ c8Store Bucket.resources role) ∧
        ∃ q ∈ ["view"], ∃ role, InClosure c8Store ["bar"] role ∧
          q ∈ c8Store (allowsBucket "blogs") role) :=
  c8_what_resources.2.1 c8Store 2 ["bar"] ["view"] ["blogs"] (by decide) "blogs"

/-- C10: allowedPermissions returns the empty object immediately, with no
store call, for every falsy user id (the empty string and the numeric id
0), regardless of the store state and of the unions capability; isAllowed
for the numeric id 0 does read the users bucket at key 0; and at the demo
state the two queries disagree for user id 0. -/
theorem c10_falsy_user :
    (∀ (s : Store) (hasUnions : Bool) (fuel : Nat) (uid : UserID) (resources : List String),
        uid.falsy = true →
        allowedPermissionsT s hasUnions fuel uid resources = (some (APValue.obj []), [])) ∧
    (∀ (s : Store) (fuel : Nat) (resource : String) (permissions : List String),
        (isAllowedT s fuel (UserID.num 0) resource permissions).2.head? =
          some (ReadOp.get Bucket.users "0")) ∧
    ((isAllowedT zeroStore 1 (UserID.num 0) "res" ["p"]).1 = some true ∧
      allowedPermissionsT zeroStore true 2 (UserID.num 0) ["res"] =
        (some (APValue.obj []), []) ∧
      allowedPermissionsT zeroStore false 2 (UserID.num 0) ["res"] =
        (some (APValue.obj []), [])) := by
  refine ⟨?_, ?_, by decide, by decide, by decide⟩
  · intro s hasUnions fuel uid resources h
    unfold allowedPermissionsT
    rw [if_pos h]
  · intro s fuel resource permissions
    have hkey : (UserID.num 0).key = "0" := by decide
    unfold isAllowedT
    rw [hkey]
    by_cases h : s Bucket.users "0" = []
    · simp only [h, if_pos rfl]
      rfl
    · simp only [if_neg h]
      rfl

/-- Witness for C10: the empty-string and zero user ids at the demo
state. -/
theorem c10_witness :
    allowedPermissionsT zeroStore true 3 (UserID.str "") ["res"] =
        (some (APValue.obj []), []) ∧
      allowedPermissionsT zeroStore false 3 (UserID.num 0) ["res"] =
        (some (APValue.obj []), []) :=
  ⟨c10_falsy_user.1 zeroStore true 3 (UserID.str "") ["res"] (by decide),
    c10_falsy_user.1 zeroStore false 3 (UserID.num 0) ["res"] (by decide)⟩

/-- Counterexample for C2 as stated: with the distinct permissions p and
the wildcard, after allow(r, res, [p, *]) and removeAllow(r, res, p) the
user still satisfies isAllowed(user, res, p) — the surviving wildcard
short-circuits the check — so the claimed isAllowed(user, res, p) = false
fails. -/
theorem c2_counterexample :
    (isAllowedT c2Store 1 (UserID.str "u") "res" ["p"]).1 = some true ∧
      (isAllowedT c2Store 1 (UserID.str "u") "res" ["p"]).1 ≠ some false := by
  constructor
  · decide
  · decide

/-- C2 as amended: for distinct permissions p and q with q not the
wildcard, after allow(r, res, [p, q]) and removeAllow(r, res, p), a user
holding role r satisfies isAllowed(user, res, q) = true and
isAllowed(user, res, p) = false — removing one permission removes only
that permission. -/
theorem c2_remove_allow_amended (uid : UserID) (r res p q : String)
    (hpq : p ≠ q) (hq : q ≠ "*") (fuel : Nat) :
    (isAllowedT
        (removeAllow (allow (addUserRoles emptyStore uid [r]) [r] [res] [p, q]) r [res] (some [p]))
        (fuel + 1) uid res [q]).1 = some true ∧
    (isAllowedT
        (removeAllow (allow (addUserRoles emptyStore uid [r]) [r] [res] [p, q]) r [res] (some [p]))
        (fuel + 1) uid res [p]).1 = some false := by
  set s1 := addUserRoles emptyStore uid [r] with hs1
  set s2 := allow s1 [r] [res] [p, q] with hs2
  have h1a : s1 (allowsBucket res) r = [] := by
    rw [hs1, addUserRoles_single_allows]
    rfl
  have h2a : s2 (allowsBucket res) r = [p, q] := by
    rw [hs2, allow_single_allows, h1a]
    simp [addVals_cons, addVals_nil, Ne.symm hpq]
  have hremove : removeAll [p, q] [p] = [q] := by
    simp [removeAll_cons, removeAll_nil, Ne.symm hpq]
  have h3def : removeAllow s2 r [res] (some [p]) = s2.removeOp (allowsBucket res) r [p] := by
    unfold removeAllow
    rw [removePermissions_single_some]
    rw [if_neg ?hcond]
    case hcond =>
      rw [Store.removeOp_same, h2a, hremove]
      simp
  rw [h3def]
  set s3 := s2.removeOp (allowsBucket res) r [p] with hs3
  have h3a : s3 (allowsBucket res) r = [q] := by
    rw [hs3, Store.removeOp_same, h2a, hremove]
  have h3u : s3 Bucket.users uid.key = [r] := by
    rw [hs3, Store.removeOp_ne _ _ _ _ _ _ (by rintro ⟨hb, _⟩; cases hb)]
    rw [hs2, allow_single_users, hs1, addUserRoles_single_users]
    simp [addVals_cons, addVals_nil, emptyStore]
  have h3p : s3 Bucket.parents r = [] := by
    rw [hs3, Store.removeOp_ne _ _ _ _ _ _ (by rintro ⟨hb, _⟩; cases hb)]
    rw [hs2, allow_single_parents, hs1, addUserRoles_single_parents]
    rfl
  have hune : s3 Bucket.users uid.key ≠ [] := by
    rw [h3u]
    simp
  have huk : unionKeys s3 (allowsBucket res) [r] = [q] := by
    rw [unionKeys_single, h3a]
    simp [addVals_cons, addVals_nil]
  have hup : unionKeys s3 Bucket.parents [r] = [] := by
    rw [unionKeys_single, h3p]
    rfl
  have hw : "*" ∉ unionKeys s3 (allowsBucket res) [r] := by
    rw [huk]
    simp [Ne.symm hq]
  constructor
  · rw [isAllowedT_eval s3 (fuel + 1) uid res [q] hune, h3u]
    rw [checkPermissionsT_granted s3 res fuel [r] [q] hw ?hgr]
    case hgr =>
      rw [huk]
      simp
  · rw [isAllowedT_eval s3 (fuel + 1) uid res [p] hune, h3u]
    rw [checkPermissionsT_noparents s3 res fuel [r] [p] hw ?hne hup]
    case hne =>
      rw [huk]
      simp [hpq]

/-- Witness for the amended C2 at concrete names. -/
theorem c2_witness :
    (isAllowedT
        (removeAllow (allow (addUserRoles emptyStore (UserID.str "u") ["r"]) ["r"] ["res"]
          ["p", "q"]) "r" ["res"] (some ["p"]))
        1 (UserID.str "u") "res" ["q"]).1 = some true ∧
    (isAllowedT
        (removeAllow (allow (addUserRoles emptyStore (UserID.str "u") ["r"]) ["r"] ["res"]
          ["p", "q"]) "r" ["res"] (some ["p"]))
        1 (UserID.str "u") "res" ["p"]).1 = some false :=
  c2_remove_allow_amended (UserID.str "u") "r" "res" "p" "q" (by decide) (by decide) 0

/-- C5: removeRole is a frame-bounded mutation — it clears exactly the
indexed allows entries of the role, its resources, parents and roles
entries, and its member in the meta roles registry, and leaves every other
(bucket, key) untouched: user membership sets keep the removed role and
other roles keep their grants on shared resources. -/
theorem c5_remove_role_frame (s : Store) (role : String) :
    (∀ u, (removeRole s role) Bucket.users u = s Bucket.users u) ∧
    (∀ res r2, r2 ≠ role →
        (removeRole s role) (allowsBucket res) r2 = s (allowsBucket res) r2) ∧
    (∀ res, res ∈ s Bucket.resources role →
        (removeRole s role) (allowsBucket res) role = []) ∧
    ((removeRole s role) Bucket.resources role = [] ∧
      (removeRole s role) Bucket.parents role = [] ∧
      (removeRole s role) Bucket.roles role = []) ∧
    ((removeRole s role) Bucket.meta "roles" = removeAll (s Bucket.meta "roles") [role]) ∧
    (∀ u, role ∈ s Bucket.users u → role ∈ (removeRole s role) Bucket.users u) ∧
    (∀ b k,
        (∀ res ∈ s Bucket.resources role, ¬ (b = allowsBucket res ∧ k = role)) →
        ¬ (b = Bucket.resources ∧ k = role) →
        ¬ (b = Bucket.parents ∧ k = role) →
        ¬ (b = Bucket.roles ∧ k = role) →
        ¬ (b = Bucket.meta ∧ k = "roles") →
        (removeRole s role) b k = s b k) :=
  ⟨removeRole_users s role,
    fun res r2 h => removeRole_allows_other s role res r2 h,
    fun res h => removeRole_allows_indexed s role res h,
    ⟨removeRole_resources s role, removeRole_parents s role, removeRole_roles s role⟩,
    removeRole_meta s role,
    fun u h => by rw [removeRole_users s role u]; exact h,
    fun b k h1 h2 h3 h4 h5 => removeRole_frame s role b k h1 h2 h3 h4 h5⟩

/-- Witness for C5 at the shared-resource state: removing role1 keeps the
grants of role2 on the shared resource and keeps role1 in the membership
set of user u. -/
theorem c5_witness :
    (removeRole c5Store "role1") (allowsBucket "shared") "role2" =
        c5Store (allowsBucket "shared") "role2" ∧
      "role1" ∈ (removeRole c5Store "role1") Bucket.users "u" :=
  ⟨(c5_remove_role_frame c5Store "role1").2.1 "shared" "role2" (by decide),
    (c5_remove_role_frame c5Store "role1").2.2.2.2.2.1 "u" (by decide)⟩
